import Mathlib

/-!
Shallow embedding of the reconciliation core of `scripts/scholar_sync.py`
(repository avc-adelaide/wspr-publications) together with proofs about it.

Python strings are modelled as lists of characters (`Str`), Python dicts as
insertion-ordered association lists, in-place mutation as explicit state
passing, and Python exceptions as `Except String`.  Floats (the fuzzy-match
cutoff and similarity ratio) are modelled as rationals.
-/

/-- Python strings are modelled as lists of characters. -/
abbrev Str := List Char

/-- The ASCII whitespace characters recognised by Python `str.strip`.
(Python additionally strips some non-ASCII Unicode space characters; for
`normalize_title` this difference is invisible because the final character
filter deletes every non-alphanumeric character anyway.) -/
def pyIsSpace (c : Char) : Bool :=
  decide (c = ' ') || decide (c = '\t') || decide (c = '\n') || decide (c = '\r') ||
  decide (c = '\x0b') || decide (c = '\x0c')

/-- Python `str.strip()`: drop leading and trailing whitespace. -/
def pyStrip (s : Str) : Str :=
  ((s.dropWhile pyIsSpace).reverse.dropWhile pyIsSpace).reverse

/-- The character class kept by `re.sub(r"[^a-z0-9]+", "", value)` in
`normalize_title`: ASCII lower-case letters (code points 97..122) and
digits (48..57). -/
def isLowerAlnum (c : Char) : Bool :=
  decide (97 ≤ c.toNat ∧ c.toNat ≤ 122) || decide (48 ≤ c.toNat ∧ c.toNat ≤ 57)

/-- `normalize_title` from `scholar_sync.py`: strip, lower-case, replace every
`&` by `and`, and delete every character outside `[a-z0-9]`.
`Char.toLower` performs exactly the ASCII case mapping; Python's `str.lower`
agrees with it on all characters that can survive the final filter. -/
def normalize_title (value : Str) : Str :=
  let v1 := (pyStrip value).map Char.toLower
  let v2 := v1.flatMap (fun c => if c = '&' then "and".toList else [c])
  v2.filter isLowerAlnum


/-!  Python dicts are modelled as insertion-ordered association lists whose
keys are unique by construction (every dict below is built from `[]` by
`pySet` / `pySetdefault`).  Lookup returns the first binding. -/

/-- Python `d.get(k)` / `d[k]`: the value bound to `k`, if any. -/
def pyGet? {κ α : Type} [DecidableEq κ] : List (κ × α) → κ → Option α
  | [], _ => none
  | kv :: d, k => if kv.1 = k then some kv.2 else pyGet? d k

/-- Python `d.get(k, dflt)`. -/
def pyGetD {κ α : Type} [DecidableEq κ] (d : List (κ × α)) (k : κ) (dflt : α) : α :=
  (pyGet? d k).getD dflt

/-- Python `k in d`. -/
def pyContains {κ α : Type} [DecidableEq κ] (d : List (κ × α)) (k : κ) : Bool :=
  (pyGet? d k).isSome

/-- Python `d[k] = v`: overwrite the value at an existing key (keeping its
insertion position) or append a fresh binding at the end. -/
def pySet {κ α : Type} [DecidableEq κ] : List (κ × α) → κ → α → List (κ × α)
  | [], k, v => [(k, v)]
  | kv :: d, k, v => if kv.1 = k then (k, v) :: d else kv :: pySet d k v

/-- Python `d.setdefault(k, v)`, restricted to its effect on the mapping. -/
def pySetdefault {κ α : Type} [DecidableEq κ] : List (κ × α) → κ → α → List (κ × α)
  | [], k, v => [(k, v)]
  | kv :: d, k, v => if kv.1 = k then kv :: d else kv :: pySetdefault d k v

/-!  The tabular data model.  A `Row` is the dictionary `csv.DictReader`
produces for one data row: string-keyed cells in insertion order, plus the
overflow fields that `DictReader` files under its `restkey` (`None`) when a
data row is longer than the header. -/

/-- One local record, as produced by `read_csv`. -/
structure Row where
  cells : List (Str × Str)
  rest : Option (List Str)
deriving DecidableEq

/-- `row.get(k)` on the string-keyed cells. -/
def rowGet? (r : Row) (k : Str) : Option Str :=
  pyGet? r.cells k

/-- `row.get(k, dflt)`. -/
def rowGetD (r : Row) (k : Str) (dflt : Str) : Str :=
  (rowGet? r k).getD dflt

/-- Whether the row dictionary defines the string key `k`. -/
def rowHasKey (r : Row) (k : Str) : Bool :=
  (rowGet? r k).isSome

/-- `row[k] = v`. -/
def rowSet (r : Row) (k v : Str) : Row :=
  ⟨pySet r.cells k v, r.rest⟩

/-- `row.setdefault(k, v)`. -/
def rowSetdefault (r : Row) (k v : Str) : Row :=
  ⟨pySetdefault r.cells k v, r.rest⟩

/-- The dictionary `csv.DictReader` builds for one data row, composed with the
`{k: (v or "") for k, v in row.items()}` cleanup of `read_csv`:
`dict(zip(fieldnames, row))`, then missing fields are bound to `restval`
(`None`, which the cleanup turns into `""`), and extra fields are filed as a
list under `restkey` (`None`), here the `rest` component. -/
def dictReaderRow (fieldnames : List Str) (rawRow : List Str) : Row :=
  let base := (List.zip fieldnames rawRow).foldl (fun d kv => pySet d kv.1 kv.2) []
  let cells :=
    if rawRow.length < fieldnames.length then
      (fieldnames.drop rawRow.length).foldl (fun d k => pySet d k []) base
    else base
  let rest :=
    if fieldnames.length < rawRow.length then some (rawRow.drop fieldnames.length) else none
  ⟨cells, rest⟩

/-- `read_csv` from `scholar_sync.py`, on an already-tokenised file: the first
raw row is the header (`reader.fieldnames or []`), every further non-blank raw
row becomes a `Row` (`csv.DictReader` skips blank rows). -/
def read_csv (raw : List (List Str)) : List Str × List Row :=
  match raw with
  | [] => ([], [])
  | header :: dataRows =>
    (header, (dataRows.filter (fun r => decide (r ≠ []))).map (dictReaderRow header))

/-- `csv.DictWriter._dict_to_list` with the default `extrasaction="raise"` and
`restval=""`: a row whose dictionary has any key outside `fieldnames`
(in particular the `restkey` entry for overlong rows) raises `ValueError`;
otherwise the row is laid out in header order with `""` for missing keys. -/
def dict_to_list (fieldnames : List Str) (row : Row) : Except String (List Str) :=
  if row.rest.isSome || row.cells.any (fun kv => decide (kv.1 ∉ fieldnames)) then
    Except.error "ValueError"
  else
    Except.ok (fieldnames.map (fun k => rowGetD row k []))

/-- `writer.writerows(rows)`: serialize the rows in order, stopping with the
exception of the first offending row. -/
def writeRows (headers : List Str) : List Row → Except String (List (List Str))
  | [] => Except.ok []
  | r :: rs =>
    match dict_to_list headers r with
    | Except.error e => Except.error e
    | Except.ok fields =>
      match writeRows headers rs with
      | Except.error e => Except.error e
      | Except.ok out => Except.ok (fields :: out)

/-- `write_csv` from `scholar_sync.py`: header row followed by the serialized
data rows, or the `ValueError` raised by `csv.DictWriter`. -/
def write_csv (headers : List Str) (rows : List Row) : Except String (List (List Str)) :=
  (writeRows headers rows).map (fun out => headers :: out)

/-!  The fuzzy matcher.  `find_match` defers to
`difflib.get_close_matches(scholar_norm, repo_keys, n=1, cutoff=cutoff)`,
whose score for a candidate `x` is `SequenceMatcher` ratio of `(x, word)`.
The embedding follows CPython's difflib: the `b2j` table with the autojunk
popularity rule (the junk set itself is empty because `get_close_matches`
passes `isjunk=None`, so the two junk-extension loops of
`find_longest_match` do nothing and are omitted), the block decomposition
of `get_matching_blocks` reduced to the total matched size, and
`ratio = 2*M/(len(a)+len(b))` (`1.0` when both are empty).  Floats are
modelled as rationals.  `quick_ratio`/`real_quick_ratio` are upper bounds
on `ratio` used only to short-circuit the cutoff test, so the filter below
keeps exactly the candidates with `ratio ≥ cutoff`; the `ValueError` that
`get_close_matches` raises for a cutoff outside `[0, 1]` is not modelled —
every claim below stays inside the documented cutoff range. -/

/-- The ascending list of positions of `c` in `b` (one entry of difflib's
`b2j` table before the autojunk rule). -/
def possIn (b : Str) (c : Char) : List ℕ :=
  (b.enum.filter (fun ia => decide (ia.2 = c))).map Prod.fst

/-- difflib's `b2j` after `__chain_b`: positions of `c` in `b`, with
"popular" characters (more than `len(b)//100 + 1` occurrences when
`len(b) >= 200`) dropped entirely. -/
def b2jOf (b : Str) (c : Char) : List ℕ :=
  if 200 ≤ b.length ∧ b.length / 100 + 1 < b.count c then [] else possIn b c

/-- Whether positions `i` of `a` and `j` of `b` hold the same character
(both in range). -/
def chMatch (a : Str) (i : ℕ) (b : Str) (j : ℕ) : Bool :=
  match a[i]?, b[j]? with
  | some x, some y => decide (x = y)
  | _, _ => false

/-- The inner `for j in b2j.get(a[i], nothing)` loop of
`find_longest_match`: reads the previous row's `j2len`, builds the new row
map, and updates the best block (strict `k > bestsize`, so the earliest
maximal block wins). -/
def flmScan (j2len : ℕ → ℕ) (i : ℕ) : List ℕ → (ℕ → ℕ) → ℕ × ℕ × ℕ → (ℕ → ℕ) × (ℕ × ℕ × ℕ)
  | [], cur, best => (cur, best)
  | j :: js, cur, best =>
    let k := (if j = 0 then 0 else j2len (j - 1)) + 1
    let cur' := fun j2 => if j2 = j then k else cur j2
    let best' := if best.2.2 < k then (i + 1 - k, j + 1 - k, k) else best
    flmScan j2len i js cur' best'

/-- The outer `for i in range(alo, ahi)` loop of `find_longest_match`.
`j < blo: continue` / `j >= bhi: break` on the ascending position list is
`takeWhile`/`filter`.  The `getD` default is never consulted for the
in-range argument ranges produced by `ratio`. -/
def flmRows (a : Str) (b2j : Char → List ℕ) (blo bhi : ℕ) :
    List ℕ → (ℕ → ℕ) → ℕ × ℕ × ℕ → ℕ × ℕ × ℕ
  | [], _, best => best
  | i :: more, j2len, best =>
    let js := ((b2j (a.getD i ' ')).takeWhile (fun j => decide (j < bhi))).filter
      (fun j => decide (blo ≤ j))
    let next := flmScan j2len i js (fun _ => 0) best
    flmRows a b2j blo bhi more next.1 next.2

/-- The backward extension loop of `find_longest_match` (the non-junk one;
the junk set is empty here). -/
def extendBack (a b : Str) (alo blo : ℕ) : ℕ × ℕ × ℕ → ℕ × ℕ × ℕ
  | (besti, bestj, bestsize) =>
    if h : alo < besti ∧ blo < bestj ∧ chMatch a (besti - 1) b (bestj - 1) then
      extendBack a b alo blo (besti - 1, bestj - 1, bestsize + 1)
    else (besti, bestj, bestsize)
termination_by t => t.1
decreasing_by omega

/-- The forward extension loop of `find_longest_match`. -/
def extendFwd (a b : Str) (ahi bhi : ℕ) : ℕ × ℕ × ℕ → ℕ × ℕ × ℕ
  | (besti, bestj, bestsize) =>
    if h : besti + bestsize < ahi ∧ bestj + bestsize < bhi ∧
        chMatch a (besti + bestsize) b (bestj + bestsize) then
      extendFwd a b ahi bhi (besti, bestj, bestsize + 1)
    else (besti, bestj, bestsize)
termination_by t => ahi - (t.1 + t.2.2)
decreasing_by omega

/-- difflib `SequenceMatcher.find_longest_match` on `a[alo:ahi]`, `b[blo:bhi]`
(with `b2j` precomputed from `b`). -/
def find_longest_match (a b : Str) (b2j : Char → List ℕ) (alo ahi blo bhi : ℕ) : ℕ × ℕ × ℕ :=
  extendFwd a b ahi bhi (extendBack a b alo blo
    (flmRows a b2j blo bhi (List.range' alo (ahi - alo)) (fun _ => 0) (alo, blo, 0)))

/-- Total size of the matching blocks of `get_matching_blocks`: the longest
match splits the range in two, which are decomposed recursively.  The fuel
only bounds the recursion depth; each recursive call strictly shrinks
`ahi - alo`, so the initial fuel `len(a) + len(b) + 1` used by `ratio` is
never exhausted. -/
def matching_size (a b : Str) (b2j : Char → List ℕ) : ℕ → ℕ → ℕ → ℕ → ℕ → ℕ
  | 0, _, _, _, _ => 0
  | fuel + 1, alo, ahi, blo, bhi =>
    let t := find_longest_match a b b2j alo ahi blo bhi
    if t.2.2 = 0 then 0
    else
      t.2.2 + (if alo < t.1 ∧ blo < t.2.1 then matching_size a b b2j fuel alo t.1 blo t.2.1 else 0) +
        (if t.1 + t.2.2 < ahi ∧ t.2.1 + t.2.2 < bhi then
          matching_size a b b2j fuel (t.1 + t.2.2) ahi (t.2.1 + t.2.2) bhi
        else 0)

/-- difflib `SequenceMatcher(None, a, b).ratio()`. -/
def ratio (a b : Str) : ℚ :=
  let m := matching_size a b (b2jOf b) (a.length + b.length + 1) 0 a.length 0 b.length
  if a.length + b.length = 0 then 1
  else (2 * (m : ℚ)) / ((a.length + b.length : ℕ) : ℚ)

/-- Python string `<` (lexicographic by code point), as used by
`heapq.nlargest` to break ties between equal ratios. -/
def strLtB : Str → Str → Bool
  | [], [] => false
  | [], _ :: _ => true
  | _ :: _, [] => false
  | c :: cs, d :: ds =>
    if c.toNat < d.toNat then true else if d.toNat < c.toNat then false else strLtB cs ds

/-- Strict comparison of the `(ratio, string)` pairs that
`get_close_matches` feeds to `heapq.nlargest`. -/
def pairLtB (f : Str → ℚ) (x y : Str) : Bool :=
  decide (f x < f y) || (decide (f x = f y) && strLtB x y)

/-- Fold computing the `nlargest(1, ...)` maximum of the `(ratio, string)`
pairs over `best :: ys`. -/
def maxFrom (f : Str → ℚ) : Str → List Str → Str
  | best, [] => best
  | best, y :: ys => maxFrom f (if pairLtB f best y then y else best) ys

/-- `difflib.get_close_matches(word, possibilities, n=1, cutoff)` reduced to
its single optional result: the `(ratio, string)`-lexicographically largest
candidate among those with `ratio ≥ cutoff`. -/
def get_close_matches1 (word : Str) (possibilities : List Str) (cutoff : ℚ) : Option Str :=
  match possibilities.filter (fun x => decide (cutoff ≤ ratio x word)) with
  | [] => none
  | x :: xs => some (maxFrom (fun z => ratio z word) x xs)

/-- `find_match` from `scholar_sync.py`: verbatim membership first, then the
single best fuzzy candidate above the cutoff. -/
def find_match (scholar_norm : Str) (repo_keys : List Str) (cutoff : ℚ) : Option Str :=
  if scholar_norm ∈ repo_keys then some scholar_norm
  else get_close_matches1 scholar_norm repo_keys cutoff

/-!  The data model of the reconciliation engine. -/

/-- One external publication record (the `ScholarPub` dataclass). -/
structure ScholarPub where
  title : Str
  scholar_id : Str
  year : Str
  venue : Str
  source : Str
deriving DecidableEq

/-- The `"Title"` field name. -/
def titleKey : Str := "Title".toList

/-- The `"Scholar ID"` field name. -/
def scholarIdKey : Str := "Scholar ID".toList

/-- `by_title`: NormalizedTitle to list of (path, row position) pairs. -/
abbrev Index := List (Str × List (Str × ℕ))

/-- `loaded`: path to (headers, rows). -/
abbrev Loaded := List (Str × (List Str × List Row))

/-- One local collection file: its path and its tokenised content (header
row first).  The filesystem byte-to-field parsing is I/O plumbing outside
the embedded core. -/
structure CsvFile where
  path : Str
  content : List (List Str)
deriving DecidableEq

/-- The `for idx, row in enumerate(rows)` loop of `build_repo_title_index`:
`by_title.setdefault(norm, []).append((path, idx))` for each row with a
non-empty normalized title. -/
def indexRows (path : Str) : List (ℕ × Row) → Index → Index
  | [], bt => bt
  | (idx, row) :: more, bt =>
    let norm := normalize_title (rowGetD row titleKey [])
    let bt' := if norm = [] then bt else pySet bt norm (pyGetD bt norm [] ++ [(path, idx)])
    indexRows path more bt'

/-- The `for path in csv_files` loop of `build_repo_title_index`. -/
def buildGo : List CsvFile → Index × Loaded → Index × Loaded
  | [], acc => acc
  | f :: fs, (bt, ld) =>
    let hr := read_csv f.content
    let ld' := pySet ld f.path hr
    let bt' := if titleKey ∈ hr.1 then indexRows f.path hr.2.enum bt else bt
    buildGo fs (bt', ld')

/-- `build_repo_title_index` from `scholar_sync.py`. -/
def build_repo_title_index (csv_files : List CsvFile) : Index × Loaded :=
  buildGo csv_files ([], [])

/-- The comparison loop of `main` (matched count and ordered missing list).
The source accumulates in a forward loop; this structurally recursive form
produces the same count and the same `missing` order. -/
def diff (scholar_pubs : List ScholarPub) (repo_keys : List Str) (cutoff : ℚ) :
    ℕ × List ScholarPub :=
  match scholar_pubs with
  | [] => (0, [])
  | pub :: rest =>
    let tail := diff rest repo_keys cutoff
    let norm := normalize_title pub.title
    if norm = [] then tail
    else
      match find_match norm repo_keys cutoff with
      | some _ => (tail.1 + 1, tail.2)
      | none => (tail.1, pub :: tail.2)

/-- The `if "Scholar ID" not in headers: headers.append(...); for row in
rows: row.setdefault(...)` block of `update_scholar_ids`. -/
def ensureColumn (hr : List Str × List Row) : List Str × List Row :=
  if scholarIdKey ∈ hr.1 then hr
  else (hr.1 ++ [scholarIdKey], hr.2.map (fun r => rowSetdefault r scholarIdKey []))

/-- The body of the `for path, row_idx in repo_index[match]` loop of
`update_scholar_ids`, acting on one `(path, row_idx)` target.  Python
mutates `headers`/`rows` in place through the references held by
`loaded_csv`; here the mutated pair is written back with `pySet`.  A lookup
of a path absent from `loaded_csv` or a row index out of range would raise
(`KeyError`/`IndexError`) and abort the run. -/
def updateCell (p : ScholarPub) (st : Loaded × ℕ) (target : Str × ℕ) :
    Except String (Loaded × ℕ) :=
  match pyGet? st.1 target.1 with
  | none => Except.error "KeyError"
  | some hr =>
    match (ensureColumn hr).2[target.2]? with
    | none => Except.error "IndexError"
    | some row =>
      if pyStrip (rowGetD row scholarIdKey []) ≠ p.scholar_id then
        Except.ok
          (pySet st.1 target.1
            ((ensureColumn hr).1,
              (ensureColumn hr).2.set target.2 (rowSet row scholarIdKey p.scholar_id)),
          st.2 + 1)
      else Except.ok (pySet st.1 target.1 (ensureColumn hr), st.2)

/-- The `for path, row_idx in repo_index[match]` loop of `update_scholar_ids`. -/
def updateTargets (p : ScholarPub) : List (Str × ℕ) → Loaded × ℕ → Except String (Loaded × ℕ)
  | [], st => Except.ok st
  | t :: ts, st =>
    match updateCell p st t with
    | Except.error e => Except.error e
    | Except.ok st' => updateTargets p ts st'

/-- The body of the `for p in scholar_pubs` loop of `update_scholar_ids`:
skip records without an id, match the normalized title against the index
key list, and update every target of the matched key. -/
def updatePub (repo_index : Index) (cutoff : ℚ) (st : Loaded × ℕ) (p : ScholarPub) :
    Except String (Loaded × ℕ) :=
  if p.scholar_id = [] then Except.ok st
  else
    match find_match (normalize_title p.title) (repo_index.map Prod.fst) cutoff with
    | none => Except.ok st
    | some m =>
      match pyGet? repo_index m with
      | none => Except.error "KeyError"
      | some targets => updateTargets p targets st

/-- The `for p in scholar_pubs` loop of `update_scholar_ids`. -/
def updateGo (repo_index : Index) (cutoff : ℚ) :
    List ScholarPub → Loaded × ℕ → Except String (Loaded × ℕ)
  | [], st => Except.ok st
  | p :: ps, st =>
    match updatePub repo_index cutoff st p with
    | Except.error e => Except.error e
    | Except.ok st' => updateGo repo_index cutoff ps st'

/-- `update_scholar_ids` from `scholar_sync.py`: returns the mutated
collections together with the updated-cell count. -/
def update_scholar_ids (loaded_csv : Loaded) (repo_index : Index)
    (scholar_pubs : List ScholarPub) (cutoff : ℚ) : Except String (Loaded × ℕ) :=
  updateGo repo_index cutoff scholar_pubs (loaded_csv, 0)

/-!  ### Derived predicates used by the theorems -/

/-- Well-formedness of one index entry with respect to the loaded
collections: the recorded (path, position) points at an existing row of a
loaded collection whose header has a Title field and whose title normalizes
exactly to the key. -/
def EntryWF (ld : Loaded) (k : Str) (pr : Str × ℕ) : Prop :=
  ∃ h r row, pyGet? ld pr.1 = some (h, r) ∧ titleKey ∈ h ∧ r[pr.2]? = some row ∧
    normalize_title (rowGetD row titleKey []) = k

/-- Well-formedness of the whole index: keys are non-empty and every entry
is well-formed. -/
def IndexWF (bt : Index) (ld : Loaded) : Prop :=
  ∀ k es, pyGet? bt k = some es → k ≠ [] ∧ ∀ pr ∈ es, EntryWF ld k pr

/-- Frame relation between a row before and after `update_scholar_ids`:
every field other than the identifier field keeps its value, the restkey
part is unchanged, and no key disappears. -/
def RowFrame (old new : Row) : Prop :=
  (∀ k, k ≠ scholarIdKey → rowGet? new k = rowGet? old k) ∧ new.rest = old.rest ∧
    ∀ k, rowHasKey old k = true → rowHasKey new k = true

/-- Frame relation between the loaded collections before and after
`update_scholar_ids`: the same paths in the same order; each collection
keeps its header or gains exactly the identifier field at the end, and its
rows correspond pointwise (same count, same order) by `RowFrame`. -/
def FrameRel (old new : Loaded) : Prop :=
  new.map Prod.fst = old.map Prod.fst ∧
  ∀ p h r, pyGet? old p = some (h, r) →
    ∃ h' r', pyGet? new p = some (h', r') ∧
      (h' = h ∨ (scholarIdKey ∉ h ∧ h' = h ++ [scholarIdKey])) ∧
      List.Forall₂ RowFrame r r'

/-- Every target of an external id has been settled in `ld`: the target
collection exists, has the identifier column, the target row exists and its
trimmed identifier cell equals the id. -/
def Targets (ld : Loaded) (id2 : Str) (es : List (Str × ℕ)) : Prop :=
  ∀ pr ∈ es, ∃ h r row, pyGet? ld pr.1 = some (h, r) ∧ scholarIdKey ∈ h ∧
    r[pr.2]? = some row ∧ pyStrip (rowGetD row scholarIdKey []) = id2

/-- An external record is settled in `ld`: if it carries a non-empty id and
its normalized title matches index key m, every target of m is already up to
date. -/
def Settled (repo_index : Index) (cutoff : ℚ) (ld : Loaded) (p : ScholarPub) : Prop :=
  p.scholar_id ≠ [] → ∀ m es,
    find_match (normalize_title p.title) (repo_index.map Prod.fst) cutoff = some m →
    pyGet? repo_index m = some es → Targets ld p.scholar_id es

/-- Invariant for the schema-add safety argument: a collection whose input
header lacked the identifier field is either still exactly as loaded or has
every row carrying the identifier key. -/
def SchemaAddInv (input cur : Loaded) : Prop :=
  ∀ path h r, pyGet? input path = some (h, r) → scholarIdKey ∉ h →
    ∀ h' r', pyGet? cur path = some (h', r') →
      (h' = h ∧ r' = r) ∨ (∀ row ∈ r', rowHasKey row scholarIdKey = true)

/-!  ## Lemmas and theorems -/

/-!  ### Association-list dictionary lemmas -/

theorem pyGet?_pySet_self {κ α : Type} [DecidableEq κ] (d : List (κ × α)) (k : κ) (v : α) :
    pyGet? (pySet d k v) k = some v := by
  induction d with
  | nil => simp [pySet, pyGet?]
  | cons kv d ih =>
    by_cases h : kv.1 = k
    · simp [pySet, h, pyGet?]
    · simp [pySet, h, pyGet?, ih]

theorem pyGet?_pySet_ne {κ α : Type} [DecidableEq κ] (d : List (κ × α)) (k k' : κ) (v : α)
    (hne : k' ≠ k) : pyGet? (pySet d k v) k' = pyGet? d k' := by
  induction d with
  | nil => simp [pySet, pyGet?, Ne.symm hne]
  | cons kv d ih =>
    by_cases h : kv.1 = k
    · subst h
      simp [pySet, pyGet?, Ne.symm hne]
    · simp [pySet, h, pyGet?, ih]

theorem pySet_eq_self {κ α : Type} [DecidableEq κ] (d : List (κ × α)) (k : κ) (v : α)
    (hget : pyGet? d k = some v) : pySet d k v = d := by
  induction d with
  | nil => simp [pyGet?] at hget
  | cons kv d ih =>
    obtain ⟨a, b⟩ := kv
    by_cases h : a = k
    · subst h
      simp [pyGet?] at hget
      simp [pySet, hget]
    · simp only [pyGet?, h, if_neg, Ne, not_false_iff] at hget
      simp [pySet, h, ih hget]

theorem keys_pySet {κ α : Type} [DecidableEq κ] (d : List (κ × α)) (k : κ) (v : α) :
    (pySet d k v).map Prod.fst = if pyContains d k then d.map Prod.fst
      else d.map Prod.fst ++ [k] := by
  induction d with
  | nil => simp [pySet, pyContains, pyGet?]
  | cons kv d ih =>
    by_cases h : kv.1 = k
    · simp [pySet, h, pyContains, pyGet?]
    · simp only [pySet, h, if_neg, Ne, not_false_iff, List.map_cons, ih, pyContains, pyGet?]
      by_cases hc : (pyGet? d k).isSome <;> simp [hc, h]

theorem mem_keys_of_pyGet? {κ α : Type} [DecidableEq κ] {d : List (κ × α)} {k : κ} {v : α}
    (h : pyGet? d k = some v) : k ∈ d.map Prod.fst := by
  induction d with
  | nil => simp [pyGet?] at h
  | cons kv d ih =>
    by_cases hk : kv.1 = k
    · simp [hk]
    · simp only [pyGet?, hk, if_neg, Ne, not_false_iff] at h
      simp [ih h]

theorem pyGet?_isSome_of_mem_keys {κ α : Type} [DecidableEq κ] {d : List (κ × α)} {k : κ}
    (h : k ∈ d.map Prod.fst) : ∃ v, pyGet? d k = some v := by
  induction d with
  | nil => simp at h
  | cons kv d ih =>
    by_cases hk : kv.1 = k
    · exact ⟨kv.2, by simp [pyGet?, hk]⟩
    · simp only [List.map_cons, List.mem_cons] at h
      rcases h with h | h
      · exact absurd h.symm hk
      · obtain ⟨v, hv⟩ := ih h
        exact ⟨v, by simp [pyGet?, hk, hv]⟩

theorem pyGet?_pySetdefault_self {κ α : Type} [DecidableEq κ] (d : List (κ × α)) (k : κ) (v : α) :
    pyGet? (pySetdefault d k v) k = some (pyGetD d k v) := by
  induction d with
  | nil => simp [pySetdefault, pyGet?, pyGetD]
  | cons kv d ih =>
    by_cases h : kv.1 = k
    · simp [pySetdefault, h, pyGet?, pyGetD]
    · simp [pySetdefault, h, pyGet?, pyGetD] at ih ⊢
      exact ih

theorem pyGet?_pySetdefault_ne {κ α : Type} [DecidableEq κ] (d : List (κ × α)) (k k' : κ) (v : α)
    (hne : k' ≠ k) : pyGet? (pySetdefault d k v) k' = pyGet? d k' := by
  induction d with
  | nil => simp [pySetdefault, pyGet?, Ne.symm hne]
  | cons kv d ih =>
    by_cases h : kv.1 = k
    · simp [pySetdefault, h, pyGet?]
    · simp [pySetdefault, h, pyGet?, ih]

/-!  ### Normalization -/

theorem isLowerAlnum_of_mem_normalize {value : Str} {c : Char}
    (hc : c ∈ normalize_title value) : isLowerAlnum c = true := by
  simp only [normalize_title] at hc
  exact List.of_mem_filter hc

theorem pyIsSpace_eq_false_of_alnum {c : Char} (h : isLowerAlnum c = true) :
    pyIsSpace c = false := by
  by_contra hsp
  have hsp' : pyIsSpace c = true := by
    cases hps : pyIsSpace c
    · exact absurd hps hsp
    · rfl
  have hcase : ((((c = ' ' ∨ c = '\t') ∨ c = '\n') ∨ c = '\r') ∨ c = '\x0b') ∨ c = '\x0c' := by
    simpa [pyIsSpace, Bool.or_eq_true, decide_eq_true_eq] using hsp'
  rcases hcase with ((((h1 | h1) | h1) | h1) | h1) | h1 <;> subst h1 <;>
    exact absurd h (by decide)

theorem toLower_eq_self_of_alnum {c : Char} (h : isLowerAlnum c = true) :
    Char.toLower c = c := by
  have hn : 97 ≤ c.toNat ∧ c.toNat ≤ 122 ∨ 48 ≤ c.toNat ∧ c.toNat ≤ 57 := by
    simpa [isLowerAlnum, Bool.or_eq_true, decide_eq_true_eq] using h
  have hno : ¬(c.toNat ≥ 65 ∧ c.toNat ≤ 90) := by omega
  unfold Char.toLower
  rw [if_neg hno]

theorem ne_amp_of_alnum {c : Char} (h : isLowerAlnum c = true) : c ≠ '&' := by
  intro he
  subst he
  exact absurd h (by decide)

theorem dropWhile_eq_self_of_all {p : Char → Bool} (s : Str)
    (h : ∀ c ∈ s, p c = false) : s.dropWhile p = s := by
  cases s with
  | nil => rfl
  | cons c cs => simp [List.dropWhile, h c (List.mem_cons_self c cs)]

theorem pyStrip_eq_self_of_all (s : Str) (h : ∀ c ∈ s, pyIsSpace c = false) :
    pyStrip s = s := by
  unfold pyStrip
  rw [dropWhile_eq_self_of_all s h,
      dropWhile_eq_self_of_all s.reverse (fun c hc => h c (List.mem_reverse.mp hc)),
      List.reverse_reverse]

theorem map_toLower_eq_self_of_all (s : Str) (h : ∀ c ∈ s, isLowerAlnum c = true) :
    s.map Char.toLower = s := by
  induction s with
  | nil => rfl
  | cons c cs ih =>
    simp only [List.map_cons, toLower_eq_self_of_alnum (h c (List.mem_cons_self c cs)),
      List.cons.injEq, true_and]
    exact ih fun d hd => h d (List.mem_cons_of_mem c hd)

theorem flatMap_amp_eq_self_of_all (s : Str) (h : ∀ c ∈ s, isLowerAlnum c = true) :
    s.flatMap (fun c => if c = '&' then "and".toList else [c]) = s := by
  induction s with
  | nil => rfl
  | cons c cs ih =>
    simp only [List.flatMap_cons, if_neg (ne_amp_of_alnum (h c (List.mem_cons_self c cs))),
      List.singleton_append, List.cons.injEq, true_and]
    exact ih fun d hd => h d (List.mem_cons_of_mem c hd)

theorem normalize_title_eq_self_of_all (s : Str) (h : ∀ c ∈ s, isLowerAlnum c = true) :
    normalize_title s = s := by
  show ((((pyStrip s).map Char.toLower).flatMap
      (fun c => if c = '&' then "and".toList else [c])).filter isLowerAlnum) = s
  rw [pyStrip_eq_self_of_all s (fun c hc => pyIsSpace_eq_false_of_alnum (h c hc)),
      map_toLower_eq_self_of_all s h, flatMap_amp_eq_self_of_all s h,
      List.filter_eq_self.mpr h]

/-- C7: for every string x, normalize(normalize(x)) equals normalize(x): the
output of `normalize_title` consists only of `[a-z0-9]` characters, on which
every stage of `normalize_title` is the identity. -/
theorem normalize_title_idempotent (x : Str) :
    normalize_title (normalize_title x) = normalize_title x :=
  normalize_title_eq_self_of_all (normalize_title x)
    (fun _ hc => isLowerAlnum_of_mem_normalize hc)

/-!  ### The matcher: exact-match precedence (C3) -/

/-- C3: if the key occurs verbatim among the candidate keys, `find_match`
returns the key itself for every cutoff in (0, 1], including cutoff = 1. -/
theorem find_match_exact (key : Str) (candidateKeys : List Str) (cutoff : ℚ)
    (hmem : key ∈ candidateKeys) (_hpos : 0 < cutoff) (_hle : cutoff ≤ 1) :
    find_match key candidateKeys cutoff = some key := by
  simp [find_match, hmem]

/-- Witness for C3 at a concrete input, with cutoff 1. -/
theorem find_match_exact_witness :
    "abc".toList ∈ ["abc".toList] ∧ (0:ℚ) < 1 ∧ (1:ℚ) ≤ 1 ∧
      find_match "abc".toList ["abc".toList] 1 = some "abc".toList :=
  ⟨by decide, by decide, by decide,
    find_match_exact "abc".toList ["abc".toList] 1 (by decide) (by decide) (by decide)⟩

/-!  ### The matcher: cutoff monotonicity (C6) -/

theorem char_toNat_inj {a b : Char} (h : a.toNat = b.toNat) : a = b :=
  Char.ext (UInt32.ext h)

theorem strLtB_cons_iff (x y : Char) (xs ys : Str) :
    strLtB (x :: xs) (y :: ys) = true ↔
      x.toNat < y.toNat ∨ (x.toNat = y.toNat ∧ strLtB xs ys = true) := by
  simp only [strLtB]
  split_ifs with h1 h2
  · simp [h1]
  · constructor
    · intro h
      exact absurd h (by simp)
    · rintro (h | ⟨h, _⟩) <;> omega
  · constructor
    · intro hr
      exact Or.inr ⟨by omega, hr⟩
    · rintro (h | ⟨_, hr⟩)
      · omega
      · exact hr

theorem strLtB_irrefl : ∀ (a : Str), strLtB a a = false
  | [] => rfl
  | _ :: cs => by simp [strLtB, strLtB_irrefl cs]

theorem strLtB_trans : ∀ (a b c : Str), strLtB a b = true → strLtB b c = true →
    strLtB a c = true
  | [], [], _, hab, _ => by simp [strLtB] at hab
  | [], _ :: _, [], _, hbc => by simp [strLtB] at hbc
  | [], _ :: _, _ :: _, _, _ => by simp [strLtB]
  | _ :: _, [], _, hab, _ => by simp [strLtB] at hab
  | _ :: _, _ :: _, [], _, hbc => by simp [strLtB] at hbc
  | x :: xs, y :: ys, z :: zs, hab, hbc => by
    rw [strLtB_cons_iff] at hab hbc ⊢
    rcases hab with h1 | ⟨h1, r1⟩
    · rcases hbc with h2 | ⟨h2, _⟩
      · exact Or.inl (by omega)
      · exact Or.inl (by omega)
    · rcases hbc with h2 | ⟨h2, r2⟩
      · exact Or.inl (by omega)
      · exact Or.inr ⟨by omega, strLtB_trans xs ys zs r1 r2⟩

theorem strLtB_total : ∀ (a b : Str), strLtB a b = true ∨ strLtB b a = true ∨ a = b
  | [], [] => Or.inr (Or.inr rfl)
  | [], _ :: _ => Or.inl (by simp [strLtB])
  | _ :: _, [] => Or.inr (Or.inl (by simp [strLtB]))
  | x :: xs, y :: ys => by
    rcases Nat.lt_trichotomy x.toNat y.toNat with h | h | h
    · exact Or.inl ((strLtB_cons_iff x y xs ys).mpr (Or.inl h))
    · rcases strLtB_total xs ys with hs | hs | hs
      · exact Or.inl ((strLtB_cons_iff x y xs ys).mpr (Or.inr ⟨h, hs⟩))
      · exact Or.inr (Or.inl ((strLtB_cons_iff y x ys xs).mpr (Or.inr ⟨h.symm, hs⟩)))
      · exact Or.inr (Or.inr (by rw [char_toNat_inj h, hs]))
    · exact Or.inr (Or.inl ((strLtB_cons_iff y x ys xs).mpr (Or.inl h)))

theorem pairLtB_irrefl (f : Str → ℚ) (a : Str) : pairLtB f a a = false := by
  simp [pairLtB, strLtB_irrefl]

theorem pairLtB_trans (f : Str → ℚ) (a b c : Str) (hab : pairLtB f a b = true)
    (hbc : pairLtB f b c = true) : pairLtB f a c = true := by
  simp only [pairLtB, Bool.or_eq_true, Bool.and_eq_true, decide_eq_true_eq] at hab hbc ⊢
  rcases hab with h1 | ⟨h1, s1⟩ <;> rcases hbc with h2 | ⟨h2, s2⟩
  · exact Or.inl (lt_trans h1 h2)
  · exact Or.inl (h2 ▸ h1)
  · exact Or.inl (h1 ▸ h2)
  · exact Or.inr ⟨h1.trans h2, strLtB_trans a b c s1 s2⟩

theorem pairLtB_total (f : Str → ℚ) (a b : Str) :
    pairLtB f a b = true ∨ pairLtB f b a = true ∨ a = b := by
  rcases lt_trichotomy (f a) (f b) with h | h | h
  · exact Or.inl (by simp [pairLtB, h])
  · rcases strLtB_total a b with hs | hs | hs
    · exact Or.inl (by simp [pairLtB, h, hs])
    · exact Or.inr (Or.inl (by simp [pairLtB, h.symm, hs]))
    · exact Or.inr (Or.inr hs)
  · exact Or.inr (Or.inl (by simp [pairLtB, h]))

theorem pairLtB_false_of_val_lt (f : Str → ℚ) (a b : Str) (h : f b < f a) :
    pairLtB f a b = false := by
  simp [pairLtB, not_lt.mpr (le_of_lt h), ne_of_gt h]

theorem maxFrom_mem (f : Str → ℚ) : ∀ (l : List Str) (b : Str),
    maxFrom f b l = b ∨ maxFrom f b l ∈ l
  | [], _ => Or.inl rfl
  | y :: ys, b => by
    simp only [maxFrom]
    rcases maxFrom_mem f ys (if pairLtB f b y then y else b) with h | h
    · rw [h]
      by_cases hc : pairLtB f b y
      · rw [if_pos hc]
        exact Or.inr (List.mem_cons_self y ys)
      · rw [if_neg hc]
        exact Or.inl rfl
    · exact Or.inr (List.mem_cons_of_mem y h)

theorem maxFrom_not_lt (f : Str → ℚ) : ∀ (l : List Str) (b : Str),
    pairLtB f (maxFrom f b l) b = false ∧ ∀ y ∈ l, pairLtB f (maxFrom f b l) y = false
  | [], b => ⟨pairLtB_irrefl f b, by simp⟩
  | y :: ys, b => by
    simp only [maxFrom]
    by_cases hc : pairLtB f b y
    · rw [if_pos hc]
      obtain ⟨h1, h2⟩ := maxFrom_not_lt f ys y
      refine ⟨?_, ?_⟩
      · cases hmb : pairLtB f (maxFrom f y ys) b
        · rfl
        · exact absurd (pairLtB_trans f _ b y hmb hc) (by simp [h1])
      · intro z hz
        rcases List.mem_cons.mp hz with hz | hz
        · exact hz ▸ h1
        · exact h2 z hz
    · rw [if_neg hc]
      obtain ⟨h1, h2⟩ := maxFrom_not_lt f ys b
      refine ⟨h1, ?_⟩
      intro z hz
      rcases List.mem_cons.mp hz with hz | hz
      · subst hz
        rcases pairLtB_total f b z with ht | ht | ht
        · exact absurd ht (by simp [hc])
        · cases hmz : pairLtB f (maxFrom f b ys) z
          · rfl
          · exact absurd (pairLtB_trans f _ z b hmz ht) (by simp [h1])
        · exact ht ▸ h1
      · exact h2 z hz

theorem max_unique (f : Str → ℚ) (s : List Str) (m1 m2 : Str) (h1 : m1 ∈ s) (h2 : m2 ∈ s)
    (hm1 : ∀ y ∈ s, pairLtB f m1 y = false) (hm2 : ∀ y ∈ s, pairLtB f m2 y = false) :
    m1 = m2 := by
  rcases pairLtB_total f m1 m2 with ht | ht | ht
  · exact absurd ht (by simp [hm1 m2 h2])
  · exact absurd ht (by simp [hm2 m1 h1])
  · exact ht

theorem get_close_matches1_spec (word : Str) (poss : List Str) (cutoff : ℚ) (r : Str)
    (h : get_close_matches1 word poss cutoff = some r) :
    r ∈ poss.filter (fun x => decide (cutoff ≤ ratio x word)) ∧
      ∀ y ∈ poss.filter (fun x => decide (cutoff ≤ ratio x word)),
        pairLtB (fun z => ratio z word) r y = false := by
  unfold get_close_matches1 at h
  cases hfl : poss.filter (fun x => decide (cutoff ≤ ratio x word)) with
  | nil => rw [hfl] at h; exact absurd h (by simp)
  | cons x xs =>
    rw [hfl] at h
    have hr : maxFrom (fun z => ratio z word) x xs = r := by
      injection h
    obtain ⟨hb, hall⟩ := maxFrom_not_lt (fun z => ratio z word) xs x
    constructor
    · rcases maxFrom_mem (fun z => ratio z word) xs x with hm | hm
      · rw [← hr, hm]
        exact List.mem_cons_self x xs
      · rw [← hr]
        exact List.mem_cons_of_mem x hm
    · intro y hy
      rcases List.mem_cons.mp hy with hy | hy
      · rw [← hr, hy]
        exact hb
      · rw [← hr]
        exact hall y hy

theorem get_close_matches1_mono (word : Str) (poss : List Str) (c c' : ℚ) (r : Str)
    (hcc : c' ≤ c) (h : get_close_matches1 word poss c = some r) :
    get_close_matches1 word poss c' = some r := by
  obtain ⟨hrmem, hrmax⟩ := get_close_matches1_spec word poss c r h
  have hrposs : r ∈ poss := List.mem_of_mem_filter hrmem
  have hrge : c ≤ ratio r word := by
    have := List.of_mem_filter hrmem
    simpa using this
  have hrmem' : r ∈ poss.filter (fun x => decide (c' ≤ ratio x word)) :=
    List.mem_filter.mpr ⟨hrposs, by simp [le_trans hcc hrge]⟩
  unfold get_close_matches1
  cases hfl : poss.filter (fun x => decide (c' ≤ ratio x word)) with
  | nil => rw [hfl] at hrmem'; exact absurd hrmem' (by simp)
  | cons x xs =>
    rw [hfl] at hrmem'
    have hmax' : ∀ y ∈ x :: xs, pairLtB (fun z => ratio z word) r y = false := by
      intro y hy
      rw [← hfl] at hy
      have hyposs : y ∈ poss := List.mem_of_mem_filter hy
      by_cases hyc : c ≤ ratio y word
      · exact hrmax y (List.mem_filter.mpr ⟨hyposs, by simp [hyc]⟩)
      · exact pairLtB_false_of_val_lt _ r y (lt_of_lt_of_le (not_le.mp hyc) hrge)
    obtain ⟨hb, hall⟩ := maxFrom_not_lt (fun z => ratio z word) xs x
    have hmmem : maxFrom (fun z => ratio z word) x xs ∈ x :: xs := by
      rcases maxFrom_mem (fun z => ratio z word) xs x with hm | hm
      · rw [hm]; exact List.mem_cons_self x xs
      · exact List.mem_cons_of_mem x hm
    have hmmax : ∀ y ∈ x :: xs, pairLtB (fun z => ratio z word)
        (maxFrom (fun z => ratio z word) x xs) y = false := by
      intro y hy
      rcases List.mem_cons.mp hy with hy | hy
      · rw [hy]; exact hb
      · exact hall y hy
    show some (maxFrom (fun z => ratio z word) x xs) = some r
    rw [max_unique (fun z => ratio z word) (x :: xs) _ r hmmem hrmem' hmmax hmax']

/-- C6: if `find_match` returns a candidate at cutoff c, it returns the same
candidate at every smaller admissible cutoff (the exact-match branch ignores
the cutoff; in the fuzzy branch lowering the cutoff only admits candidates
with strictly smaller ratio, which cannot displace the maximum). -/
theorem find_match_cutoff_mono (key : Str) (candidateKeys : List Str) (c c' : ℚ) (r : Str)
    (_hnn : 0 ≤ c') (hlt : c' < c) (h : find_match key candidateKeys c = some r) :
    find_match key candidateKeys c' = some r := by
  by_cases hmem : key ∈ candidateKeys
  · simpa [find_match, hmem] using h
  · simp only [find_match, hmem, if_neg, if_false] at h ⊢
    exact get_close_matches1_mono key candidateKeys c c' r (le_of_lt hlt) h

/-- Witness for C6 at a concrete input (cutoffs 1 and 0). -/
theorem find_match_cutoff_mono_witness :
    (0:ℚ) ≤ 0 ∧ (0:ℚ) < 1 ∧ find_match "ab".toList ["ab".toList] 1 = some "ab".toList ∧
      find_match "ab".toList ["ab".toList] 0 = some "ab".toList :=
  ⟨le_refl 0, by decide, by decide,
    find_match_cutoff_mono "ab".toList ["ab".toList] 1 0 "ab".toList (le_refl 0)
      (by decide) (by decide)⟩

/-!  ### Diff partition completeness (C2) -/

/-- C2: for every ordered external feed, key list and cutoff, matchedCount
plus the length of the missing list equals the number of records with a
non-empty NormalizedTitle, and the missing list is exactly the ordered
sublist of unmatched such records. -/
theorem diff_partition (scholar_pubs : List ScholarPub) (repo_keys : List Str) (cutoff : ℚ) :
    (diff scholar_pubs repo_keys cutoff).1 + (diff scholar_pubs repo_keys cutoff).2.length =
      (scholar_pubs.filter (fun p => decide (normalize_title p.title ≠ []))).length ∧
    (diff scholar_pubs repo_keys cutoff).2 = scholar_pubs.filter
      (fun p => decide (normalize_title p.title ≠ []) &&
        (find_match (normalize_title p.title) repo_keys cutoff).isNone) := by
  induction scholar_pubs with
  | nil => simp [diff]
  | cons pub rest ih =>
    obtain ⟨ih1, ih2⟩ := ih
    by_cases hn : normalize_title pub.title = []
    · simp only [diff, hn, if_pos rfl, List.filter_cons]
      constructor
      · simpa [hn] using ih1
      · simpa [hn] using ih2
    · have hlen : (List.filter (fun p => decide (normalize_title p.title ≠ []))
          (pub :: rest)).length =
          (List.filter (fun p => decide (normalize_title p.title ≠ [])) rest).length + 1 := by
        simp [List.filter_cons, hn]
      cases hm : find_match (normalize_title pub.title) repo_keys cutoff with
      | some m =>
        simp only [diff, hm, if_neg hn]
        constructor
        · rw [hlen]
          omega
        · rw [List.filter_cons, if_neg (by simp [hm, hn])]
          exact ih2
      | none =>
        simp only [diff, hm, if_neg hn]
        constructor
        · rw [hlen]
          simp only [List.length_cons]
          omega
        · rw [List.filter_cons, if_pos (by simp [hm, hn])]
          rw [ih2]

/-!  ### Empty normalized titles are skipped everywhere (C4) -/

theorem b2jOf_nil (c : Char) : b2jOf [] c = [] := by
  simp [b2jOf, possIn]

theorem flmRows_of_b2j_nil (a : Str) (b2j : Char → List ℕ) (blo bhi : ℕ)
    (hb : ∀ c, b2j c = []) : ∀ (l : List ℕ) (j2len : ℕ → ℕ) (best : ℕ × ℕ × ℕ),
    flmRows a b2j blo bhi l j2len best = best
  | [], _, _ => rfl
  | i :: more, j2len, best => by
    simp only [flmRows, hb, List.takeWhile_nil, List.filter_nil, flmScan]
    exact flmRows_of_b2j_nil a b2j blo bhi hb more _ best

theorem extendBack_self (a b : Str) (alo blo bj bs : ℕ) :
    extendBack a b alo blo (alo, bj, bs) = (alo, bj, bs) := by
  rw [extendBack]
  simp

theorem extendFwd_bhi_zero (a b : Str) (ahi : ℕ) (t : ℕ × ℕ × ℕ) (h : t.2.1 + t.2.2 = 0) :
    extendFwd a b ahi 0 t = t := by
  obtain ⟨bi, bj, bs⟩ := t
  rw [extendFwd]
  simp only at h
  simp [h, Nat.not_lt_zero]

theorem find_longest_match_b_nil (a : Str) (b2j : Char → List ℕ) (alo ahi : ℕ)
    (hb : ∀ c, b2j c = []) (b : Str) :
    find_longest_match a b b2j alo ahi 0 0 = (alo, 0, 0) := by
  unfold find_longest_match
  rw [flmRows_of_b2j_nil a b2j 0 0 hb, extendBack_self]
  rw [extendFwd_bhi_zero]
  rfl

theorem matching_size_b_nil (a b : Str) (b2j : Char → List ℕ) (hb : ∀ c, b2j c = [])
    (fuel alo ahi : ℕ) : matching_size a b b2j (fuel + 1) alo ahi 0 0 = 0 := by
  rw [matching_size]
  simp [find_longest_match_b_nil a b2j alo ahi hb b]

theorem ratio_b_nil (a : Str) (ha : a ≠ []) : ratio a [] = 0 := by
  unfold ratio
  simp only [List.length_nil, Nat.add_zero]
  rw [if_neg (by simp [List.length_eq_zero, ha])]
  rw [matching_size_b_nil a [] (b2jOf []) b2jOf_nil a.length 0 a.length]
  simp

theorem find_match_empty_none (repo_keys : List Str) (cutoff : ℚ) (hpos : 0 < cutoff)
    (hkeys : ∀ k ∈ repo_keys, k ≠ []) : find_match [] repo_keys cutoff = none := by
  have hmem : ([] : Str) ∉ repo_keys := fun hc => hkeys [] hc rfl
  simp only [find_match, hmem, if_neg, if_false]
  unfold get_close_matches1
  have hfl : repo_keys.filter (fun x => decide (cutoff ≤ ratio x [])) = [] := by
    rw [List.filter_eq_nil_iff]
    intro x hx
    rw [ratio_b_nil x (hkeys x hx)]
    simp [not_le.mpr hpos]
  rw [hfl]

theorem diff_skips_empty (scholar_pubs : List ScholarPub) (repo_keys : List Str) (cutoff : ℚ) :
    diff scholar_pubs repo_keys cutoff =
      diff (scholar_pubs.filter (fun p => decide (normalize_title p.title ≠ [])))
        repo_keys cutoff := by
  induction scholar_pubs with
  | nil => rfl
  | cons pub rest ih =>
    by_cases hn : normalize_title pub.title = []
    · rw [List.filter_cons, if_neg (by simp [hn])]
      simp only [diff, hn, if_pos rfl]
      exact ih
    · rw [List.filter_cons, if_pos (by simp [hn])]
      simp only [diff, if_neg hn]
      rw [ih]

theorem updatePub_empty_norm (repo_index : Index) (cutoff : ℚ) (st : Loaded × ℕ)
    (p : ScholarPub) (hpos : 0 < cutoff)
    (hkeys : ∀ k ∈ repo_index.map Prod.fst, k ≠ [])
    (hn : normalize_title p.title = []) : updatePub repo_index cutoff st p = Except.ok st := by
  unfold updatePub
  by_cases hid : p.scholar_id = []
  · rw [if_pos hid]
  · rw [if_neg hid, hn, find_match_empty_none _ cutoff hpos hkeys]

theorem updateGo_skips_empty (repo_index : Index) (cutoff : ℚ) (hpos : 0 < cutoff)
    (hkeys : ∀ k ∈ repo_index.map Prod.fst, k ≠ []) :
    ∀ (pubs : List ScholarPub) (st : Loaded × ℕ),
    updateGo repo_index cutoff pubs st =
      updateGo repo_index cutoff
        (pubs.filter (fun p => decide (normalize_title p.title ≠ []))) st
  | [], _ => rfl
  | pub :: rest, st => by
    by_cases hn : normalize_title pub.title = []
    · rw [List.filter_cons, if_neg (by simp [hn])]
      simp only [updateGo, updatePub_empty_norm repo_index cutoff st pub hpos hkeys hn]
      exact updateGo_skips_empty repo_index cutoff hpos hkeys rest st
    · rw [List.filter_cons, if_pos (by simp [hn])]
      simp only [updateGo]
      cases hp : updatePub repo_index cutoff st pub with
      | error e => rfl
      | ok st' => exact updateGo_skips_empty repo_index cutoff hpos hkeys rest st'

/-- C4: an external record with an empty NormalizedTitle is neither counted
as matched nor appended to missing by the diff pass, and never triggers any
local-record update in `update_scholar_ids`: both passes compute exactly the
same result when every such record is removed from the feed.  (The index key
hypothesis holds for every index built by `build_repo_title_index`, which
skips empty normalized titles; the cutoff is positive per the contract.) -/
theorem empty_norm_never_matches (scholar_pubs : List ScholarPub) (repo_index : Index)
    (loaded_csv : Loaded) (cutoff : ℚ) (hpos : 0 < cutoff)
    (hkeys : ∀ k ∈ repo_index.map Prod.fst, k ≠ []) :
    diff scholar_pubs (repo_index.map Prod.fst) cutoff =
      diff (scholar_pubs.filter (fun p => decide (normalize_title p.title ≠ [])))
        (repo_index.map Prod.fst) cutoff ∧
    update_scholar_ids loaded_csv repo_index scholar_pubs cutoff =
      update_scholar_ids loaded_csv repo_index
        (scholar_pubs.filter (fun p => decide (normalize_title p.title ≠ []))) cutoff :=
  ⟨diff_skips_empty scholar_pubs (repo_index.map Prod.fst) cutoff,
    updateGo_skips_empty repo_index cutoff hpos hkeys scholar_pubs (loaded_csv, 0)⟩

/-- Witness for C4 at a concrete input: a record whose title normalizes to
the empty string, against a one-key index. -/
theorem empty_norm_never_matches_witness :
    (0:ℚ) < 1 ∧
    (∀ k ∈ ([("t".toList, [("f".toList, 0)])] : Index).map Prod.fst, k ≠ []) ∧
    (diff [⟨[], "x".toList, [], [], []⟩]
        (([("t".toList, [("f".toList, 0)])] : Index).map Prod.fst) 1 =
      diff (([⟨[], "x".toList, [], [], []⟩] : List ScholarPub).filter
          (fun p => decide (normalize_title p.title ≠ [])))
        (([("t".toList, [("f".toList, 0)])] : Index).map Prod.fst) 1 ∧
    update_scholar_ids [] [("t".toList, [("f".toList, 0)])]
        [⟨[], "x".toList, [], [], []⟩] 1 =
      update_scholar_ids [] [("t".toList, [("f".toList, 0)])]
        (([⟨[], "x".toList, [], [], []⟩] : List ScholarPub).filter
          (fun p => decide (normalize_title p.title ≠ []))) 1) :=
  ⟨by decide, by decide,
    empty_norm_never_matches [⟨[], "x".toList, [], [], []⟩]
      [("t".toList, [("f".toList, 0)])] [] 1 (by decide) (by decide)⟩

/-!  ### Malformed local rows (C5) -/

theorem pyGet?_foldl_pySet_not_mem {κ α : Type} [DecidableEq κ] (v : α) :
    ∀ (ks : List κ) (d : List (κ × α)) (k : κ), k ∉ ks →
      pyGet? (ks.foldl (fun d2 k2 => pySet d2 k2 v) d) k = pyGet? d k
  | [], _, _, _ => rfl
  | k0 :: ks, d, k, h => by
    simp only [List.foldl_cons]
    rw [pyGet?_foldl_pySet_not_mem v ks _ k (fun hm => h (List.mem_cons_of_mem k0 hm)),
        pyGet?_pySet_ne d k0 k v (fun he => h (he ▸ List.mem_cons_self k0 ks))]

theorem pyGet?_foldl_pySet_mem {κ α : Type} [DecidableEq κ] (v : α) :
    ∀ (ks : List κ) (d : List (κ × α)) (k : κ), k ∈ ks →
      pyGet? (ks.foldl (fun d2 k2 => pySet d2 k2 v) d) k = some v
  | [], _, k, h => absurd h (List.not_mem_nil k)
  | k0 :: ks, d, k, h => by
    simp only [List.foldl_cons]
    by_cases hm : k ∈ ks
    · exact pyGet?_foldl_pySet_mem v ks _ k hm
    · have hk : k = k0 := by
        rcases List.mem_cons.mp h with h1 | h1
        · exact h1
        · exact absurd h1 hm
      subst hk
      rw [pyGet?_foldl_pySet_not_mem v ks _ k hm, pyGet?_pySet_self]

theorem mem_keys_foldl_pairs {κ α : Type} [DecidableEq κ] :
    ∀ (kvs : List (κ × α)) (d : List (κ × α)) (k : κ),
      k ∈ ((kvs.foldl (fun d2 kv => pySet d2 kv.1 kv.2) d).map Prod.fst) →
      k ∈ d.map Prod.fst ∨ k ∈ kvs.map Prod.fst
  | [], _, _, h => Or.inl h
  | kv :: kvs, d, k, h => by
    simp only [List.foldl_cons] at h
    rcases mem_keys_foldl_pairs kvs _ k h with h1 | h1
    · rw [keys_pySet] at h1
      by_cases hc : pyContains d kv.1
      · rw [if_pos hc] at h1
        exact Or.inl h1
      · rw [if_neg hc] at h1
        rcases List.mem_append.mp h1 with h2 | h2
        · exact Or.inl h2
        · simp only [List.mem_singleton] at h2
          exact Or.inr (by simp [h2])
    · exact Or.inr (by simp [h1])

theorem mem_keys_foldl_keys {κ α : Type} [DecidableEq κ] (v : α) :
    ∀ (ks : List κ) (d : List (κ × α)) (k : κ),
      k ∈ ((ks.foldl (fun d2 k2 => pySet d2 k2 v) d).map Prod.fst) →
      k ∈ d.map Prod.fst ∨ k ∈ ks
  | [], _, _, h => Or.inl h
  | k0 :: ks, d, k, h => by
    simp only [List.foldl_cons] at h
    rcases mem_keys_foldl_keys v ks _ k h with h1 | h1
    · rw [keys_pySet] at h1
      by_cases hc : pyContains d k0
      · rw [if_pos hc] at h1
        exact Or.inl h1
      · rw [if_neg hc] at h1
        rcases List.mem_append.mp h1 with h2 | h2
        · exact Or.inl h2
        · simp only [List.mem_singleton] at h2
          exact Or.inr (by simp [h2])
    · exact Or.inr (List.mem_cons_of_mem k0 h1)

theorem dictReaderRow_keys_sub (header : List Str) (r : List Str) (k : Str)
    (h : k ∈ (dictReaderRow header r).cells.map Prod.fst) : k ∈ header := by
  unfold dictReaderRow at h
  simp only at h
  by_cases hlt : r.length < header.length
  · rw [if_pos hlt] at h
    rcases mem_keys_foldl_keys [] (header.drop r.length) _ k h with h1 | h1
    · rcases mem_keys_foldl_pairs (List.zip header r) [] k h1 with h2 | h2
      · exact absurd h2 (List.not_mem_nil k)
      · obtain ⟨⟨a, b⟩, hab, hfst⟩ := List.mem_map.mp h2
        exact hfst ▸ (List.of_mem_zip hab).1
    · exact List.mem_of_mem_drop h1
  · rw [if_neg hlt] at h
    rcases mem_keys_foldl_pairs (List.zip header r) [] k h with h2 | h2
    · exact absurd h2 (List.not_mem_nil k)
    · obtain ⟨⟨a, b⟩, hab, hfst⟩ := List.mem_map.mp h2
      exact hfst ▸ (List.of_mem_zip hab).1

theorem dictReaderRow_rest_none (header : List Str) (r : List Str)
    (hle : r.length ≤ header.length) : (dictReaderRow header r).rest = none := by
  unfold dictReaderRow
  simp only
  rw [if_neg (not_lt.mpr hle)]

theorem dictReaderRow_missing (header : List Str) (r : List Str)
    (_hle : r.length ≤ header.length) (k : Str) (hk : k ∈ header.drop r.length) :
    rowGetD (dictReaderRow header r) k [] = [] := by
  have hlt : r.length < header.length := by
    by_contra hno
    rw [List.drop_eq_nil_of_le (not_lt.mp hno)] at hk
    exact absurd hk (List.not_mem_nil k)
  unfold rowGetD rowGet? dictReaderRow
  simp only [if_pos hlt]
  rw [pyGet?_foldl_pySet_mem [] (header.drop r.length) _ k hk]
  rfl

theorem dict_to_list_isOk (header : List Str) (r : List Str)
    (hle : r.length ≤ header.length) :
    dict_to_list header (dictReaderRow header r) =
      Except.ok (header.map (fun k => rowGetD (dictReaderRow header r) k [])) := by
  unfold dict_to_list
  rw [if_neg ?_]
  · intro hcond
    rcases Bool.or_eq_true _ _ ▸ hcond with h1 | h1
    · rw [dictReaderRow_rest_none header r hle] at h1
      exact absurd h1 (by simp)
    · obtain ⟨kv, hkv, hnot⟩ := List.any_eq_true.mp h1
      have : kv.1 ∈ header :=
        dictReaderRow_keys_sub header r kv.1 (List.mem_map.mpr ⟨kv, hkv, rfl⟩)
      simp only [decide_eq_true_eq] at hnot
      exact hnot this

theorem writeRows_isOk (header : List Str) :
    ∀ (rs : List (List Str)), (∀ r ∈ rs, r.length ≤ header.length) →
      ∃ out, writeRows header (rs.map (dictReaderRow header)) = Except.ok out
  | [], _ => ⟨[], rfl⟩
  | r :: rs, h => by
    obtain ⟨o2, ho2⟩ := writeRows_isOk header rs
      (fun r2 hr2 => h r2 (List.mem_cons_of_mem r hr2))
    refine ⟨(header.map (fun k => rowGetD (dictReaderRow header r) k [])) :: o2, ?_⟩
    simp only [List.map_cons, writeRows,
      dict_to_list_isOk header r (h r (List.mem_cons_self r rs)), ho2]

/-- C5 counterexample: a data row with one extra field relative to the header
is loaded (the extras land under `DictReader`'s restkey), but rewriting the
collection then fails with the `ValueError` that `csv.DictWriter` raises for
keys outside the header — a fatal error, contradicting "never fails
fatally". -/
theorem malformed_row_cex :
    write_csv (read_csv [["Title".toList], ["a".toList, "b".toList]]).1
        (read_csv [["Title".toList], ["a".toList, "b".toList]]).2 =
      Except.error "ValueError" := by rfl

/-- C5 (amended): a data row with missing fields relative to the header is
recovered by treating each absent field as the empty string, and loading
plus rewriting such a collection never fails; a data row with extra fields,
however, makes rewriting the collection fail fatally (see the
counterexample). -/
theorem malformed_short_rows_safe (header : List Str) (dataRows : List (List Str))
    (hshort : ∀ r ∈ dataRows, r.length ≤ header.length) :
    (∀ r ∈ dataRows, ∀ k ∈ header.drop r.length,
      rowGetD (dictReaderRow header r) k [] = []) ∧
    ∃ out, write_csv (read_csv (header :: dataRows)).1 (read_csv (header :: dataRows)).2 =
      Except.ok out := by
  constructor
  · intro r hr k hk
    exact dictReaderRow_missing header r (hshort r hr) k hk
  · simp only [read_csv]
    obtain ⟨out, hout⟩ := writeRows_isOk header (dataRows.filter (fun r => !decide (r = [])))
      (fun r hr => hshort r (List.mem_of_mem_filter hr))
    exact ⟨header :: out, by simp [write_csv, hout, Except.map]⟩

/-- Witness for the amended C5 at a concrete input: a two-column header with
a one-field data row. -/
theorem malformed_short_rows_safe_witness :
    (∀ r ∈ [["a".toList]], r.length ≤ ["Title".toList, "Year".toList].length) ∧
    ((∀ r ∈ [["a".toList]], ∀ k ∈ ["Title".toList, "Year".toList].drop r.length,
      rowGetD (dictReaderRow ["Title".toList, "Year".toList] r) k [] = []) ∧
    ∃ out, write_csv (read_csv (["Title".toList, "Year".toList] :: [["a".toList]])).1
        (read_csv (["Title".toList, "Year".toList] :: [["a".toList]])).2 =
      Except.ok out) :=
  ⟨by decide, malformed_short_rows_safe ["Title".toList, "Year".toList] [["a".toList]]
    (by decide)⟩

/-!  ### Index builder well-formedness (C10) -/

theorem indexRows_wf (ld : Loaded) (path : Str) (h0 : List Str) (r0 : List Row)
    (hld : pyGet? ld path = some (h0, r0)) (htitle : titleKey ∈ h0) :
    ∀ (l : List (ℕ × Row)) (bt : Index),
      (∀ pr ∈ l, r0[pr.1]? = some pr.2) →
      IndexWF bt ld → IndexWF (indexRows path l bt) ld
  | [], _, _, hwf => hwf
  | (idx, row) :: more, bt, hmem, hwf => by
    simp only [indexRows]
    by_cases hn : normalize_title (rowGetD row titleKey []) = []
    · rw [if_pos hn]
      exact indexRows_wf ld path h0 r0 hld htitle more bt
        (fun pr hpr => hmem pr (List.mem_cons_of_mem _ hpr)) hwf
    · rw [if_neg hn]
      apply indexRows_wf ld path h0 r0 hld htitle more _
        (fun pr hpr => hmem pr (List.mem_cons_of_mem _ hpr))
      intro k es hk
      by_cases hkn : k = normalize_title (rowGetD row titleKey [])
      · subst hkn
        rw [pyGet?_pySet_self] at hk
        injection hk with hes
        subst hes
        refine ⟨hn, ?_⟩
        intro pr hpr
        rcases List.mem_append.mp hpr with hold | hnew2
        · cases hbt : pyGet? bt (normalize_title (rowGetD row titleKey [])) with
          | none => rw [pyGetD, hbt] at hold; exact absurd hold (List.not_mem_nil pr)
          | some es0 =>
            rw [pyGetD, hbt] at hold
            exact (hwf _ es0 hbt).2 pr hold
        · simp only [List.mem_singleton] at hnew2
          subst hnew2
          exact ⟨h0, r0, row, hld, htitle, hmem (idx, row) (List.mem_cons_self _ _), rfl⟩
      · rw [pyGet?_pySet_ne bt _ k _ hkn] at hk
        exact hwf k es hk

theorem buildGo_wf : ∀ (fs : List CsvFile) (bt : Index) (ld : Loaded),
    (fs.map CsvFile.path).Nodup →
    (∀ f ∈ fs, pyContains ld f.path = false) →
    IndexWF bt ld →
    IndexWF (buildGo fs (bt, ld)).1 (buildGo fs (bt, ld)).2
  | [], _, _, _, _, hwf => hwf
  | f :: fs, bt, ld, hnd, hnew, hwf => by
    simp only [buildGo]
    have hf : pyContains ld f.path = false := hnew f (List.mem_cons_self f fs)
    have hndc : f.path ∉ fs.map CsvFile.path ∧ (fs.map CsvFile.path).Nodup := by
      rw [List.map_cons, List.nodup_cons] at hnd
      exact hnd
    have hpres : ∀ k es, pyGet? bt k = some es → ∀ pr ∈ es,
        EntryWF (pySet ld f.path (read_csv f.content)) k pr := by
      intro k es hk pr hpr
      obtain ⟨h, r, row, hget, ht, hrow, hnorm⟩ := (hwf k es hk).2 pr hpr
      by_cases hp : pr.1 = f.path
      · rw [hp] at hget
        rw [pyContains, hget] at hf
        exact absurd hf (by simp)
      · exact ⟨h, r, row, by
          rw [pyGet?_pySet_ne ld f.path pr.1 (read_csv f.content) hp]
          exact hget, ht, hrow, hnorm⟩
    have hwf' : IndexWF bt (pySet ld f.path (read_csv f.content)) :=
      fun k es hk => ⟨(hwf k es hk).1, hpres k es hk⟩
    have hnew' : ∀ g ∈ fs, pyContains (pySet ld f.path (read_csv f.content)) g.path = false := by
      intro g hg
      have hne : g.path ≠ f.path := by
        intro he
        exact hndc.1 (he ▸ List.mem_map.mpr ⟨g, hg, rfl⟩)
      rw [pyContains, pyGet?_pySet_ne ld f.path g.path (read_csv f.content) hne]
      exact hnew g (List.mem_cons_of_mem f hg)
    by_cases ht : titleKey ∈ (read_csv f.content).1
    · rw [if_pos ht]
      apply buildGo_wf fs _ _ hndc.2 hnew'
      apply indexRows_wf (pySet ld f.path (read_csv f.content)) f.path
        (read_csv f.content).1 (read_csv f.content).2 (pyGet?_pySet_self ld f.path _) ht
        (read_csv f.content).2.enum bt ?_ hwf'
      intro pr hpr
      obtain ⟨i, row⟩ := pr
      exact List.mk_mem_enum_iff_getElem?.mp hpr
    · rw [if_neg ht]
      exact buildGo_wf fs bt _ hndc.2 hnew' hwf'

theorem build_index_wf (files : List CsvFile) (hnd : (files.map CsvFile.path).Nodup) :
    IndexWF (build_repo_title_index files).1 (build_repo_title_index files).2 :=
  buildGo_wf files [] [] hnd (fun _ _ => rfl)
    (fun _ _ h => absurd h (by simp [pyGet?]))

/-- C10: for every sequence of collection files (with the distinct paths a
filesystem glob yields), the built index is well-formed: every key is a
non-empty normalized title and every (path, position) entry points at an
existing row of a loaded collection whose header contains the Title field
and whose title normalizes exactly to that key. -/
theorem build_repo_title_index_wf (files : List CsvFile)
    (hnd : (files.map CsvFile.path).Nodup) :
    ∀ k es, pyGet? (build_repo_title_index files).1 k = some es →
      k ≠ [] ∧ ∀ pr ∈ es, ∃ h r row,
        pyGet? (build_repo_title_index files).2 pr.1 = some (h, r) ∧ titleKey ∈ h ∧
        r[pr.2]? = some row ∧ normalize_title (rowGetD row titleKey []) = k :=
  build_index_wf files hnd

/-- Witness for C10 at a concrete input: one collection with one row whose
title "T" normalizes to the key "t". -/
theorem build_repo_title_index_wf_witness :
    (([⟨"f".toList, [["Title".toList], ["T".toList]]⟩] : List CsvFile).map
        CsvFile.path).Nodup ∧
    ("t".toList ≠ [] ∧ ∃ h r row,
      pyGet? (build_repo_title_index
          [⟨"f".toList, [["Title".toList], ["T".toList]]⟩]).2 "f".toList = some (h, r) ∧
        titleKey ∈ h ∧ r[(0:ℕ)]? = some row ∧
        normalize_title (rowGetD row titleKey []) = "t".toList) := by
  refine ⟨by decide, ?_, ?_⟩
  · exact (build_repo_title_index_wf [⟨"f".toList, [["Title".toList], ["T".toList]]⟩]
      (by decide) "t".toList [("f".toList, 0)] (by decide)).1
  · exact (build_repo_title_index_wf [⟨"f".toList, [["Title".toList], ["T".toList]]⟩]
      (by decide) "t".toList [("f".toList, 0)] (by decide)).2 ("f".toList, 0) (by decide)

/-!  ### Frame properties of the update pass (C9) -/

theorem rowFrame_refl (r : Row) : RowFrame r r :=
  ⟨fun _ _ => rfl, rfl, fun _ h => h⟩

theorem rowFrame_trans {a b c : Row} (hab : RowFrame a b) (hbc : RowFrame b c) :
    RowFrame a c :=
  ⟨fun k hk => (hbc.1 k hk).trans (hab.1 k hk), hbc.2.1.trans hab.2.1,
    fun k hk => hbc.2.2 k (hab.2.2 k hk)⟩

theorem rowFrame_setdefault (r : Row) (v : Str) :
    RowFrame r (rowSetdefault r scholarIdKey v) := by
  refine ⟨?_, rfl, ?_⟩
  · intro k hk
    exact pyGet?_pySetdefault_ne r.cells scholarIdKey k v hk
  · intro k hk
    by_cases hks : k = scholarIdKey
    · subst hks
      rw [rowHasKey, rowGet?]
      rw [show (rowSetdefault r scholarIdKey v).cells = pySetdefault r.cells scholarIdKey v
        from rfl]
      rw [pyGet?_pySetdefault_self]
      rfl
    · rw [rowHasKey, rowGet?,
        show (rowSetdefault r scholarIdKey v).cells = pySetdefault r.cells scholarIdKey v
          from rfl,
        pyGet?_pySetdefault_ne r.cells scholarIdKey k v hks]
      exact hk

theorem rowFrame_set (r : Row) (v : Str) : RowFrame r (rowSet r scholarIdKey v) := by
  refine ⟨?_, rfl, ?_⟩
  · intro k hk
    exact pyGet?_pySet_ne r.cells scholarIdKey k v hk
  · intro k hk
    by_cases hks : k = scholarIdKey
    · subst hks
      rw [rowHasKey, rowGet?,
        show (rowSet r scholarIdKey v).cells = pySet r.cells scholarIdKey v from rfl,
        pyGet?_pySet_self]
      rfl
    · rw [rowHasKey, rowGet?,
        show (rowSet r scholarIdKey v).cells = pySet r.cells scholarIdKey v from rfl,
        pyGet?_pySet_ne r.cells scholarIdKey k v hks]
      exact hk

theorem forall2_rowFrame_refl : ∀ (l : List Row), List.Forall₂ RowFrame l l
  | [] => List.Forall₂.nil
  | r :: rs => List.Forall₂.cons (rowFrame_refl r) (forall2_rowFrame_refl rs)

theorem forall2_rowFrame_trans : ∀ {a b c : List Row}, List.Forall₂ RowFrame a b →
    List.Forall₂ RowFrame b c → List.Forall₂ RowFrame a c
  | [], [], [], _, _ => List.Forall₂.nil
  | _ :: _, _ :: _, _ :: _, List.Forall₂.cons h1 t1, List.Forall₂.cons h2 t2 =>
    List.Forall₂.cons (rowFrame_trans h1 h2) (forall2_rowFrame_trans t1 t2)

theorem forall2_rowFrame_map (f : Row → Row) (hf : ∀ r, RowFrame r (f r)) :
    ∀ (l : List Row), List.Forall₂ RowFrame l (l.map f)
  | [] => List.Forall₂.nil
  | r :: rs => List.Forall₂.cons (hf r) (forall2_rowFrame_map f hf rs)

theorem forall2_rowFrame_set : ∀ (l : List Row) (i : ℕ) (row new : Row),
    l[i]? = some row → RowFrame row new → List.Forall₂ RowFrame l (l.set i new)
  | [], i, row, new, hget, _ => by simp at hget
  | r :: rs, 0, row, new, hget, hrf => by
    simp only [List.getElem?_cons_zero, Option.some.injEq] at hget
    subst hget
    exact List.Forall₂.cons hrf (forall2_rowFrame_refl rs)
  | r :: rs, i + 1, row, new, hget, hrf => by
    simp only [List.getElem?_cons_succ] at hget
    exact List.Forall₂.cons (rowFrame_refl r)
      (forall2_rowFrame_set rs i row new hget hrf)

theorem frameRel_refl (ld : Loaded) : FrameRel ld ld :=
  ⟨rfl, fun _ h r hget => ⟨h, r, hget, Or.inl rfl, forall2_rowFrame_refl r⟩⟩

theorem frameRel_trans {a b c : Loaded} (hab : FrameRel a b) (hbc : FrameRel b c) :
    FrameRel a c := by
  refine ⟨hbc.1.trans hab.1, ?_⟩
  intro p h r hget
  obtain ⟨h', r', hget', hh', hrr'⟩ := hab.2 p h r hget
  obtain ⟨h'', r'', hget'', hh'', hrr''⟩ := hbc.2 p h' r' hget'
  refine ⟨h'', r'', hget'', ?_, forall2_rowFrame_trans hrr' hrr''⟩
  rcases hh' with hh' | ⟨hns, hh'⟩
  · rcases hh'' with hh'' | ⟨hns'', hh''⟩
    · exact Or.inl (hh''.trans hh')
    · exact Or.inr ⟨hh' ▸ hns'', hh'' ▸ hh' ▸ rfl⟩
  · rcases hh'' with hh'' | ⟨hns'', hh''⟩
    · exact Or.inr ⟨hns, hh'' ▸ hh'⟩
    · exfalso
      apply hns''
      rw [hh']
      exact List.mem_append.mpr (Or.inr (List.mem_singleton.mpr rfl))

theorem ensureColumn_mem (hr : List Str × List Row) :
    scholarIdKey ∈ (ensureColumn hr).1 := by
  unfold ensureColumn
  by_cases h : scholarIdKey ∈ hr.1
  · rw [if_pos h]
    exact h
  · rw [if_neg h]
    exact List.mem_append.mpr (Or.inr (List.mem_singleton.mpr rfl))

theorem ensureColumn_headers (hr : List Str × List Row) :
    (ensureColumn hr).1 = hr.1 ∨
      (scholarIdKey ∉ hr.1 ∧ (ensureColumn hr).1 = hr.1 ++ [scholarIdKey]) := by
  unfold ensureColumn
  by_cases h : scholarIdKey ∈ hr.1
  · rw [if_pos h]
    exact Or.inl rfl
  · rw [if_neg h]
    exact Or.inr ⟨h, rfl⟩

theorem ensureColumn_rows_frame (hr : List Str × List Row) :
    List.Forall₂ RowFrame hr.2 (ensureColumn hr).2 := by
  unfold ensureColumn
  by_cases h : scholarIdKey ∈ hr.1
  · rw [if_pos h]
    exact forall2_rowFrame_refl hr.2
  · rw [if_neg h]
    exact forall2_rowFrame_map _ (fun r => rowFrame_setdefault r []) hr.2

theorem ensureColumn_of_mem (hr : List Str × List Row) (h : scholarIdKey ∈ hr.1) :
    ensureColumn hr = hr := by
  unfold ensureColumn
  rw [if_pos h]

theorem frameRel_pySet (ld : Loaded) (path : Str) (H : List Str) (R : List Row)
    (newv : List Str × List Row) (hget : pyGet? ld path = some (H, R))
    (hh : newv.1 = H ∨ (scholarIdKey ∉ H ∧ newv.1 = H ++ [scholarIdKey]))
    (hrr : List.Forall₂ RowFrame R newv.2) :
    FrameRel ld (pySet ld path newv) := by
  constructor
  · rw [keys_pySet, if_pos (by rw [pyContains, hget]; rfl)]
  · intro p h r hget2
    by_cases hp : p = path
    · subst hp
      rw [hget2] at hget
      injection hget with he
      injection he with he1 he2
      subst he1
      subst he2
      exact ⟨newv.1, newv.2, by rw [pyGet?_pySet_self], hh, hrr⟩
    · exact ⟨h, r, by rw [pyGet?_pySet_ne ld path p newv hp]; exact hget2, Or.inl rfl,
        forall2_rowFrame_refl r⟩

theorem updateCell_frame (p : ScholarPub) (st st' : Loaded × ℕ) (t : Str × ℕ)
    (hok : updateCell p st t = Except.ok st') : FrameRel st.1 st'.1 := by
  unfold updateCell at hok
  split at hok
  · exact absurd hok (by simp)
  · rename_i hr hget
    split at hok
    · exact absurd hok (by simp)
    · rename_i row hrow
      split at hok
      · rename_i hcur
        injection hok with he
        have hst : st'.1 = pySet st.1 t.1
            ((ensureColumn hr).1,
              (ensureColumn hr).2.set t.2 (rowSet row scholarIdKey p.scholar_id)) := by
          rw [← he]
        rw [hst]
        refine frameRel_pySet st.1 t.1 hr.1 hr.2 _ hget ?_ ?_
        · exact ensureColumn_headers hr
        · exact forall2_rowFrame_trans (ensureColumn_rows_frame hr)
            (forall2_rowFrame_set _ t.2 row _ hrow (rowFrame_set row p.scholar_id))
      · rename_i hcur
        injection hok with he
        have hst : st'.1 = pySet st.1 t.1 (ensureColumn hr) := by
          rw [← he]
        rw [hst]
        exact frameRel_pySet st.1 t.1 hr.1 hr.2 _ hget (ensureColumn_headers hr)
          (ensureColumn_rows_frame hr)

theorem updateTargets_frame (p : ScholarPub) : ∀ (ts : List (Str × ℕ)) (st out : Loaded × ℕ),
    updateTargets p ts st = Except.ok out → FrameRel st.1 out.1
  | [], st, out, hok => by
    injection hok with he
    rw [he]
    exact frameRel_refl out.1
  | t :: ts, st, out, hok => by
    unfold updateTargets at hok
    split at hok
    · exact absurd hok (by simp)
    · rename_i st1 hc
      exact frameRel_trans (updateCell_frame p st st1 t hc)
        (updateTargets_frame p ts st1 out hok)

theorem updatePub_frame (repo_index : Index) (cutoff : ℚ) (st out : Loaded × ℕ)
    (p : ScholarPub) (hok : updatePub repo_index cutoff st p = Except.ok out) :
    FrameRel st.1 out.1 := by
  unfold updatePub at hok
  split at hok
  · injection hok with he
    rw [he]
    exact frameRel_refl out.1
  · split at hok
    · injection hok with he
      rw [he]
      exact frameRel_refl out.1
    · rename_i m hm
      split at hok
      · exact absurd hok (by simp)
      · rename_i targets htg
        exact updateTargets_frame p targets st out hok

theorem updateGo_frame (repo_index : Index) (cutoff : ℚ) :
    ∀ (ps : List ScholarPub) (st out : Loaded × ℕ),
      updateGo repo_index cutoff ps st = Except.ok out → FrameRel st.1 out.1
  | [], st, out, hok => by
    injection hok with he
    rw [he]
    exact frameRel_refl out.1
  | p :: ps, st, out, hok => by
    unfold updateGo at hok
    split at hok
    · exact absurd hok (by simp)
    · rename_i st1 hp
      exact frameRel_trans (updatePub_frame repo_index cutoff st st1 p hp)
        (updateGo_frame repo_index cutoff ps st1 out hok)

/-- C9: a successful `update_scholar_ids` run keeps every collection's path
set, record count and record order; each header is unchanged or gains only
the identifier field at the end; and in each record every field other than
the identifier field keeps its prior value, no key is removed, and the
restkey part is untouched (see `FrameRel` and `RowFrame`). -/
theorem update_scholar_ids_frame (loaded_csv : Loaded) (repo_index : Index)
    (scholar_pubs : List ScholarPub) (cutoff : ℚ) (out : Loaded × ℕ)
    (hok : update_scholar_ids loaded_csv repo_index scholar_pubs cutoff = Except.ok out) :
    FrameRel loaded_csv out.1 :=
  updateGo_frame repo_index cutoff scholar_pubs (loaded_csv, 0) out hok

/-- Witness for C9 at a concrete successful run that extends the schema and
rewrites one cell. -/
theorem update_scholar_ids_frame_witness :
    update_scholar_ids
        [("f".toList, (["Title".toList], [⟨[("Title".toList, "t".toList)], none⟩]))]
        [("t".toList, [("f".toList, 0)])]
        [⟨"t".toList, "x".toList, [], [], []⟩] 1 =
      Except.ok
        ([("f".toList, (["Title".toList, "Scholar ID".toList],
          [⟨[("Title".toList, "t".toList), ("Scholar ID".toList, "x".toList)], none⟩]))], 1) ∧
    FrameRel
      [("f".toList, (["Title".toList], [⟨[("Title".toList, "t".toList)], none⟩]))]
      ([("f".toList, (["Title".toList, "Scholar ID".toList],
        [⟨[("Title".toList, "t".toList), ("Scholar ID".toList, "x".toList)], none⟩]))], 1).1 :=
  ⟨by rfl,
    update_scholar_ids_frame
      [("f".toList, (["Title".toList], [⟨[("Title".toList, "t".toList)], none⟩]))]
      [("t".toList, [("f".toList, 0)])]
      [⟨"t".toList, "x".toList, [], [], []⟩] 1
      ([("f".toList, (["Title".toList, "Scholar ID".toList],
        [⟨[("Title".toList, "t".toList), ("Scholar ID".toList, "x".toList)], none⟩]))], 1)
      (by rfl)⟩

/-!  ### Schema-add safety (C8) -/

theorem rowHasKey_rowSet_self (r : Row) (v : Str) :
    rowHasKey (rowSet r scholarIdKey v) scholarIdKey = true := by
  rw [rowHasKey, rowGet?, show (rowSet r scholarIdKey v).cells = pySet r.cells scholarIdKey v
    from rfl, pyGet?_pySet_self]
  rfl

theorem ensure_rows_keyed (hr : List Str × List Row)
    (hpre : scholarIdKey ∉ hr.1 ∨ ∀ row ∈ hr.2, rowHasKey row scholarIdKey = true) :
    ∀ row ∈ (ensureColumn hr).2, rowHasKey row scholarIdKey = true := by
  unfold ensureColumn
  by_cases h : scholarIdKey ∈ hr.1
  · rw [if_pos h]
    rcases hpre with hpre | hpre
    · exact absurd h hpre
    · exact hpre
  · rw [if_neg h]
    intro row hrow
    obtain ⟨row0, _, hmap⟩ := List.mem_map.mp hrow
    subst hmap
    rw [rowHasKey, rowGet?, show (rowSetdefault row0 scholarIdKey []).cells =
      pySetdefault row0.cells scholarIdKey [] from rfl, pyGet?_pySetdefault_self]
    rfl

theorem set_rows_keyed (l : List Row) (i : ℕ) (new : Row)
    (hl : ∀ row ∈ l, rowHasKey row scholarIdKey = true)
    (hnew : rowHasKey new scholarIdKey = true) :
    ∀ row ∈ l.set i new, rowHasKey row scholarIdKey = true := by
  intro row hrow
  rcases List.mem_or_eq_of_mem_set hrow with h | h
  · exact hl row h
  · exact h ▸ hnew

theorem schemaInv_pySet (input cur : Loaded) (t1 : Str) (hr newv : List Str × List Row)
    (hget : pyGet? cur t1 = some hr) (hinv : SchemaAddInv input cur)
    (hkeyed : (scholarIdKey ∉ hr.1 ∨ ∀ r2 ∈ hr.2, rowHasKey r2 scholarIdKey = true) →
      ∀ r2 ∈ newv.2, rowHasKey r2 scholarIdKey = true) :
    SchemaAddInv input (pySet cur t1 newv) := by
  intro path h r hin hno h' r' hafter
  by_cases hp : path = t1
  · subst hp
    rw [pyGet?_pySet_self] at hafter
    injection hafter with he
    have hsnd : newv.2 = r' := congrArg Prod.snd he
    rcases hinv path h r hin hno hr.1 hr.2 hget with ⟨hh, _⟩ | hk
    · refine Or.inr ?_
      rw [← hsnd]
      exact hkeyed (Or.inl (hh ▸ hno))
    · refine Or.inr ?_
      rw [← hsnd]
      exact hkeyed (Or.inr hk)
  · rw [pyGet?_pySet_ne cur t1 path newv hp] at hafter
    exact hinv path h r hin hno h' r' hafter

theorem updateCell_schemaInv (input : Loaded) (p : ScholarPub) (st st' : Loaded × ℕ)
    (t : Str × ℕ) (hok : updateCell p st t = Except.ok st')
    (hinv : SchemaAddInv input st.1) : SchemaAddInv input st'.1 := by
  unfold updateCell at hok
  split at hok
  · exact absurd hok (by simp)
  · rename_i hr hget
    split at hok
    · exact absurd hok (by simp)
    · rename_i row hrow
      split at hok
      · rename_i hcur
        injection hok with he
        have hst : st'.1 = pySet st.1 t.1
            ((ensureColumn hr).1,
              (ensureColumn hr).2.set t.2 (rowSet row scholarIdKey p.scholar_id)) := by
          rw [← he]
        rw [hst]
        refine schemaInv_pySet input st.1 t.1 hr _ hget hinv ?_
        intro hpre
        exact set_rows_keyed (ensureColumn hr).2 t.2 _ (ensure_rows_keyed hr hpre)
          (rowHasKey_rowSet_self row p.scholar_id)
      · rename_i hcur
        injection hok with he
        have hst : st'.1 = pySet st.1 t.1 (ensureColumn hr) := by
          rw [← he]
        rw [hst]
        refine schemaInv_pySet input st.1 t.1 hr _ hget hinv ?_
        intro hpre
        exact ensure_rows_keyed hr hpre

theorem updateTargets_schemaInv (input : Loaded) (p : ScholarPub) :
    ∀ (ts : List (Str × ℕ)) (st out : Loaded × ℕ),
      updateTargets p ts st = Except.ok out → SchemaAddInv input st.1 →
      SchemaAddInv input out.1
  | [], st, out, hok, hinv => by
    injection hok with he
    rw [← he]
    exact hinv
  | t :: ts, st, out, hok, hinv => by
    unfold updateTargets at hok
    split at hok
    · exact absurd hok (by simp)
    · rename_i st1 hc
      exact updateTargets_schemaInv input p ts st1 out hok
        (updateCell_schemaInv input p st st1 t hc hinv)

theorem updatePub_schemaInv (input : Loaded) (repo_index : Index) (cutoff : ℚ)
    (st out : Loaded × ℕ) (p : ScholarPub)
    (hok : updatePub repo_index cutoff st p = Except.ok out)
    (hinv : SchemaAddInv input st.1) : SchemaAddInv input out.1 := by
  unfold updatePub at hok
  split at hok
  · injection hok with he
    rw [← he]
    exact hinv
  · split at hok
    · injection hok with he
      rw [← he]
      exact hinv
    · rename_i m hm
      split at hok
      · exact absurd hok (by simp)
      · rename_i targets htg
        exact updateTargets_schemaInv input p targets st out hok hinv

theorem updateGo_schemaInv (input : Loaded) (repo_index : Index) (cutoff : ℚ) :
    ∀ (ps : List ScholarPub) (st out : Loaded × ℕ),
      updateGo repo_index cutoff ps st = Except.ok out → SchemaAddInv input st.1 →
      SchemaAddInv input out.1
  | [], st, out, hok, hinv => by
    injection hok with he
    rw [← he]
    exact hinv
  | p :: ps, st, out, hok, hinv => by
    unfold updateGo at hok
    split at hok
    · exact absurd hok (by simp)
    · rename_i st1 hp
      exact updateGo_schemaInv input repo_index cutoff ps st1 out hok
        (updatePub_schemaInv input repo_index cutoff st st1 p hp hinv)

/-- C8: if `update_scholar_ids` added the identifier field to a collection's
schema (absent before the call, present after), then every record of that
collection has a defined value for the identifier key after the call, so no
lookup of that field can miss. -/
theorem schema_add_safety (loaded_csv : Loaded) (repo_index : Index)
    (scholar_pubs : List ScholarPub) (cutoff : ℚ) (out : Loaded × ℕ) (path : Str)
    (h : List Str) (r : List Row) (h' : List Str) (r' : List Row)
    (hok : update_scholar_ids loaded_csv repo_index scholar_pubs cutoff = Except.ok out)
    (hbefore : pyGet? loaded_csv path = some (h, r)) (hno : scholarIdKey ∉ h)
    (hafter : pyGet? out.1 path = some (h', r')) (hyes : scholarIdKey ∈ h') :
    ∀ row ∈ r', rowHasKey row scholarIdKey = true := by
  have hrefl : SchemaAddInv loaded_csv loaded_csv := by
    intro path2 h2 r2 hin2 _ h2' r2' hafter2
    rw [hin2] at hafter2
    injection hafter2 with he2
    injection he2 with he3 he4
    exact Or.inl ⟨he3.symm, he4.symm⟩
  have hinv : SchemaAddInv loaded_csv out.1 :=
    updateGo_schemaInv loaded_csv repo_index cutoff scholar_pubs (loaded_csv, 0) out hok hrefl
  rcases hinv path h r hbefore hno h' r' hafter with ⟨hh, _⟩ | hkeyed
  · exact absurd (hh ▸ hyes) hno
  · exact hkeyed

/-- Witness for C8 at a concrete run that adds the identifier column. -/
theorem schema_add_safety_witness :
    update_scholar_ids
        [("f".toList, (["Title".toList], [⟨[("Title".toList, "t".toList)], none⟩]))]
        [("t".toList, [("f".toList, 0)])]
        [⟨"t".toList, "x".toList, [], [], []⟩] 1 =
      Except.ok
        ([("f".toList, (["Title".toList, "Scholar ID".toList],
          [⟨[("Title".toList, "t".toList), ("Scholar ID".toList, "x".toList)], none⟩]))], 1) ∧
    pyGet? ([("f".toList, (["Title".toList], [⟨[("Title".toList, "t".toList)], none⟩]))] :
          Loaded)
        "f".toList = some (["Title".toList], [⟨[("Title".toList, "t".toList)], none⟩]) ∧
    scholarIdKey ∉ ["Title".toList] ∧
    rowHasKey (⟨[("Title".toList, "t".toList), ("Scholar ID".toList, "x".toList)], none⟩ : Row)
      scholarIdKey = true := by
  refine ⟨by rfl, by rfl, by decide, ?_⟩
  exact schema_add_safety
    [("f".toList, (["Title".toList], [⟨[("Title".toList, "t".toList)], none⟩]))]
    [("t".toList, [("f".toList, 0)])]
    [⟨"t".toList, "x".toList, [], [], []⟩] 1
    ([("f".toList, (["Title".toList, "Scholar ID".toList],
      [⟨[("Title".toList, "t".toList), ("Scholar ID".toList, "x".toList)], none⟩]))], 1)
    "f".toList ["Title".toList] [⟨[("Title".toList, "t".toList)], none⟩]
    ["Title".toList, "Scholar ID".toList]
    [⟨[("Title".toList, "t".toList), ("Scholar ID".toList, "x".toList)], none⟩]
    (by rfl) (by rfl) (by decide) (by rfl) (by decide)
    (⟨[("Title".toList, "t".toList), ("Scholar ID".toList, "x".toList)], none⟩ : Row)
    (by decide)

/-!  ### Second-run behaviour of the update pass (C1) -/

theorem indexWF_key_fun (bt : Index) (ld : Loaded) (hwf : IndexWF bt ld) :
    ∀ m m' es es' pr, pyGet? bt m = some es → pyGet? bt m' = some es' →
      pr ∈ es → pr ∈ es' → m = m' := by
  intro m m' es es' pr hm hm' hpr hpr'
  obtain ⟨h, r, row, hld, _, hrow, hnorm⟩ := (hwf m es hm).2 pr hpr
  obtain ⟨h2, r2, row2, hld2, _, hrow2, hnorm2⟩ := (hwf m' es' hm').2 pr hpr'
  rw [hld] at hld2
  injection hld2 with he
  injection he with he1 he2
  subst he1
  subst he2
  rw [hrow] at hrow2
  injection hrow2 with he3
  subst he3
  rw [← hnorm, ← hnorm2]

theorem find_match_mem (k : Str) (repo_keys : List Str) (cutoff : ℚ) (m : Str)
    (h : find_match k repo_keys cutoff = some m) : m ∈ repo_keys := by
  unfold find_match at h
  by_cases hmem : k ∈ repo_keys
  · rw [if_pos hmem] at h
    injection h with he
    exact he ▸ hmem
  · rw [if_neg hmem] at h
    obtain ⟨hm, _⟩ := get_close_matches1_spec k repo_keys cutoff m h
    exact List.mem_of_mem_filter hm

theorem rowGetD_rowSet_self (r : Row) (v : Str) :
    rowGetD (rowSet r scholarIdKey v) scholarIdKey [] = v := by
  rw [rowGetD, rowGet?,
    show (rowSet r scholarIdKey v).cells = pySet r.cells scholarIdKey v from rfl,
    pyGet?_pySet_self]
  rfl

theorem updateCell_establishes (q : ScholarPub) (ld : Loaded) (cnt : ℕ)
    (st' : Loaded × ℕ) (tq : Str × ℕ) (hok : updateCell q (ld, cnt) tq = Except.ok st')
    (hqid : pyStrip q.scholar_id = q.scholar_id) :
    ∃ h r row, pyGet? st'.1 tq.1 = some (h, r) ∧ scholarIdKey ∈ h ∧
      r[tq.2]? = some row ∧ pyStrip (rowGetD row scholarIdKey []) = q.scholar_id := by
  unfold updateCell at hok
  split at hok
  · exact absurd hok (by simp)
  · rename_i hr hget
    split at hok
    · exact absurd hok (by simp)
    · rename_i rowq hrowq
      have hlt : tq.2 < (ensureColumn hr).2.length := (List.getElem?_eq_some.mp hrowq).1
      split at hok
      · rename_i hcur
        injection hok with he
        have hst : st'.1 = pySet ld tq.1
            ((ensureColumn hr).1,
              (ensureColumn hr).2.set tq.2 (rowSet rowq scholarIdKey q.scholar_id)) := by
          rw [← he]
        refine ⟨(ensureColumn hr).1,
          (ensureColumn hr).2.set tq.2 (rowSet rowq scholarIdKey q.scholar_id),
          rowSet rowq scholarIdKey q.scholar_id, ?_, ensureColumn_mem hr, ?_, ?_⟩
        · rw [hst]
          exact pyGet?_pySet_self ld tq.1 _
        · rw [List.getElem?_set_eq hlt]
        · rw [rowGetD_rowSet_self, hqid]
      · rename_i hcur
        injection hok with he
        have hst : st'.1 = pySet ld tq.1 (ensureColumn hr) := by
          rw [← he]
        have hcur2 : pyStrip (rowGetD rowq scholarIdKey []) = q.scholar_id := by
          by_contra hc
          exact hcur hc
        refine ⟨(ensureColumn hr).1, (ensureColumn hr).2, rowq, ?_,
          ensureColumn_mem hr, hrowq, hcur2⟩
        rw [hst]
        exact pyGet?_pySet_self ld tq.1 _

theorem updateCell_preserves_entry (repo_index : Index) (q : ScholarPub)
    (ld : Loaded) (cnt : ℕ) (st' : Loaded × ℕ) (tq : Str × ℕ) (mq : Str)
    (esq : List (Str × ℕ)) (hq_es : pyGet? repo_index mq = some esq) (htq : tq ∈ esq)
    (hok : updateCell q (ld, cnt) tq = Except.ok st')
    (hqid : pyStrip q.scholar_id = q.scholar_id)
    (wfFun : ∀ m m' es es' pr, pyGet? repo_index m = some es →
      pyGet? repo_index m' = some es' → pr ∈ es → pr ∈ es' → m = m')
    (id2 : Str) (pr : Str × ℕ) (mp : Str) (esp : List (Str × ℕ))
    (hp_es : pyGet? repo_index mp = some esp) (hpr : pr ∈ esp)
    (hsame : mp = mq → id2 = q.scholar_id)
    (hone : ∃ h r row, pyGet? ld pr.1 = some (h, r) ∧ scholarIdKey ∈ h ∧
      r[pr.2]? = some row ∧ pyStrip (rowGetD row scholarIdKey []) = id2) :
    ∃ h r row, pyGet? st'.1 pr.1 = some (h, r) ∧ scholarIdKey ∈ h ∧
      r[pr.2]? = some row ∧ pyStrip (rowGetD row scholarIdKey []) = id2 := by
  obtain ⟨h, r, row, hld, hsid, hrow, hstrip⟩ := hone
  unfold updateCell at hok
  split at hok
  · exact absurd hok (by simp)
  · rename_i hr hget
    split at hok
    · exact absurd hok (by simp)
    · rename_i rowq hrowq
      by_cases hp1 : pr.1 = tq.1
      · rw [hp1] at hld
        rw [hld] at hget
        injection hget with he0
        subst he0
        rw [show ensureColumn (h, r) = (h, r) from ensureColumn_of_mem (h, r) hsid]
          at hok hrowq
        have hlt : tq.2 < r.length := (List.getElem?_eq_some.mp hrowq).1
        split at hok
        · rename_i hcur
          injection hok with he
          have hst : st'.1 = pySet ld tq.1
              ((h, r).1, (h, r).2.set tq.2 (rowSet rowq scholarIdKey q.scholar_id)) := by
            rw [← he]
          by_cases hp2 : pr.2 = tq.2
          · have hpt : pr = tq := Prod.ext_iff.mpr ⟨hp1, hp2⟩
            have hmpq : mp = mq := wfFun mp mq esp esq pr hp_es hq_es hpr (hpt ▸ htq)
            have hid : id2 = q.scholar_id := hsame hmpq
            refine ⟨h, r.set tq.2 (rowSet rowq scholarIdKey q.scholar_id),
              rowSet rowq scholarIdKey q.scholar_id, ?_, hsid, ?_, ?_⟩
            · rw [hst, hp1]
              exact pyGet?_pySet_self ld tq.1 _
            · rw [hp2, List.getElem?_set_eq hlt]
            · rw [rowGetD_rowSet_self, hqid, hid]
          · refine ⟨h, r.set tq.2 (rowSet rowq scholarIdKey q.scholar_id), row, ?_, hsid,
              ?_, hstrip⟩
            · rw [hst, hp1]
              exact pyGet?_pySet_self ld tq.1 _
            · rw [List.getElem?_set_ne (fun he2 => hp2 he2.symm)]
              exact hrow
        · rename_i hcur
          injection hok with he
          have hst : st'.1 = pySet ld tq.1 (h, r) := by
            rw [← he]
          refine ⟨h, r, row, ?_, hsid, hrow, hstrip⟩
          rw [hst, hp1]
          exact pyGet?_pySet_self ld tq.1 _
      · split at hok
        · rename_i hcur
          injection hok with he
          have hst : st'.1 = pySet ld tq.1
              ((ensureColumn hr).1,
                (ensureColumn hr).2.set tq.2 (rowSet rowq scholarIdKey q.scholar_id)) := by
            rw [← he]
          refine ⟨h, r, row, ?_, hsid, hrow, hstrip⟩
          rw [hst, pyGet?_pySet_ne ld tq.1 pr.1 _ hp1]
          exact hld
        · rename_i hcur
          injection hok with he
          have hst : st'.1 = pySet ld tq.1 (ensureColumn hr) := by
            rw [← he]
          refine ⟨h, r, row, ?_, hsid, hrow, hstrip⟩
          rw [hst, pyGet?_pySet_ne ld tq.1 pr.1 _ hp1]
          exact hld

theorem updateTargets_preserves (repo_index : Index) (q : ScholarPub) (mq : Str)
    (esq : List (Str × ℕ)) (hq_es : pyGet? repo_index mq = some esq)
    (hqid : pyStrip q.scholar_id = q.scholar_id)
    (wfFun : ∀ m m' es es' pr, pyGet? repo_index m = some es →
      pyGet? repo_index m' = some es' → pr ∈ es → pr ∈ es' → m = m') :
    ∀ (ts : List (Str × ℕ)), (∀ t ∈ ts, t ∈ esq) →
      ∀ (st st' : Loaded × ℕ), updateTargets q ts st = Except.ok st' →
      ∀ (id2 : Str) (mp : Str) (esp : List (Str × ℕ)),
        pyGet? repo_index mp = some esp → (mp = mq → id2 = q.scholar_id) →
        Targets st.1 id2 esp → Targets st'.1 id2 esp
  | [], _, st, st', hok, id2, mp, esp, _, _, htg => by
    injection hok with he
    rw [← he]
    exact htg
  | t :: ts, hts, st, st', hok, id2, mp, esp, hp_es, hsame, htg => by
    unfold updateTargets at hok
    split at hok
    · exact absurd hok (by simp)
    · rename_i st1 hc
      have htg1 : Targets st1.1 id2 esp := by
        intro pr hpr
        exact updateCell_preserves_entry repo_index q st.1 st.2 st1 t mq esq hq_es
          (hts t (List.mem_cons_self t ts)) hc hqid wfFun id2 pr mp esp hp_es hpr hsame
          (htg pr hpr)
      exact updateTargets_preserves repo_index q mq esq hq_es hqid wfFun ts
        (fun t2 ht2 => hts t2 (List.mem_cons_of_mem t ht2)) st1 st' hok id2 mp esp
        hp_es hsame htg1

theorem updateTargets_establishes (repo_index : Index) (q : ScholarPub) (mq : Str)
    (esq : List (Str × ℕ)) (hq_es : pyGet? repo_index mq = some esq)
    (hqid : pyStrip q.scholar_id = q.scholar_id)
    (wfFun : ∀ m m' es es' pr, pyGet? repo_index m = some es →
      pyGet? repo_index m' = some es' → pr ∈ es → pr ∈ es' → m = m') :
    ∀ (ts : List (Str × ℕ)), (∀ t ∈ ts, t ∈ esq) →
      ∀ (st st' : Loaded × ℕ), updateTargets q ts st = Except.ok st' →
      ∀ (done : List (Str × ℕ)), (∀ t ∈ done, t ∈ esq) →
        Targets st.1 q.scholar_id done → Targets st'.1 q.scholar_id (done ++ ts)
  | [], _, st, st', hok, done, _, htg => by
    injection hok with he
    rw [← he, List.append_nil]
    exact htg
  | t :: ts, hts, st, st', hok, done, hdone, htg => by
    unfold updateTargets at hok
    split at hok
    · exact absurd hok (by simp)
    · rename_i st1 hc
      have htg1 : Targets st1.1 q.scholar_id (done ++ [t]) := by
        intro pr hpr
        rcases List.mem_append.mp hpr with hprd | hprt
        · exact updateCell_preserves_entry repo_index q st.1 st.2 st1 t mq esq hq_es
            (hts t (List.mem_cons_self t ts)) hc hqid wfFun q.scholar_id pr mq esq hq_es
            (hdone pr hprd) (fun _ => rfl) (htg pr hprd)
        · rw [List.mem_singleton] at hprt
          subst hprt
          exact updateCell_establishes q st.1 st.2 st1 pr hc hqid
      have hrec := updateTargets_establishes repo_index q mq esq hq_es hqid wfFun ts
        (fun t2 ht2 => hts t2 (List.mem_cons_of_mem t ht2)) st1 st' hok (done ++ [t])
        (fun t2 ht2 => by
          rcases List.mem_append.mp ht2 with h2 | h2
          · exact hdone t2 h2
          · rw [List.mem_singleton] at h2
            exact h2 ▸ hts t (List.mem_cons_self t ts))
        htg1
      rwa [List.append_assoc, List.singleton_append] at hrec

theorem updatePub_settles (repo_index : Index) (cutoff : ℚ) (q : ScholarPub)
    (st st' : Loaded × ℕ) (hok : updatePub repo_index cutoff st q = Except.ok st')
    (hqid : pyStrip q.scholar_id = q.scholar_id)
    (wfFun : ∀ m m' es es' pr, pyGet? repo_index m = some es →
      pyGet? repo_index m' = some es' → pr ∈ es → pr ∈ es' → m = m') :
    Settled repo_index cutoff st'.1 q := by
  unfold updatePub at hok
  split at hok
  · rename_i hid
    intro hne
    exact absurd hid hne
  · split at hok
    · rename_i hfm
      intro hne m es hfm2 hes
      rw [hfm] at hfm2
      exact absurd hfm2 (by simp)
    · rename_i m hm
      split at hok
      · exact absurd hok (by simp)
      · rename_i targets htgs
        intro hne m' es' hfm' hes'
        have hm2 : m' = m := by
          rw [hm] at hfm'
          injection hfm' with he
          exact he.symm
        subst hm2
        have hes2 : es' = targets := by
          rw [htgs] at hes'
          injection hes' with he
          exact he.symm
        subst hes2
        have hrec := updateTargets_establishes repo_index q m' es' hes' hqid wfFun es'
          (fun t ht => ht) st st' hok [] (fun t ht => absurd ht (List.not_mem_nil t))
          (fun pr hpr => absurd hpr (List.not_mem_nil pr))
        rwa [List.nil_append] at hrec

theorem updatePub_preserves_settled (repo_index : Index) (cutoff : ℚ) (q p : ScholarPub)
    (st st' : Loaded × ℕ) (hok : updatePub repo_index cutoff st q = Except.ok st')
    (hqid : pyStrip q.scholar_id = q.scholar_id)
    (wfFun : ∀ m m' es es' pr, pyGet? repo_index m = some es →
      pyGet? repo_index m' = some es' → pr ∈ es → pr ∈ es' → m = m')
    (hpq : ∀ m, p.scholar_id ≠ [] → q.scholar_id ≠ [] →
      find_match (normalize_title p.title) (repo_index.map Prod.fst) cutoff = some m →
      find_match (normalize_title q.title) (repo_index.map Prod.fst) cutoff = some m →
      p.scholar_id = q.scholar_id)
    (hp : Settled repo_index cutoff st.1 p) : Settled repo_index cutoff st'.1 p := by
  unfold updatePub at hok
  split at hok
  · injection hok with he
    rw [← he]
    exact hp
  · rename_i hqne
    split at hok
    · injection hok with he
      rw [← he]
      exact hp
    · rename_i m hm
      split at hok
      · exact absurd hok (by simp)
      · rename_i targets htgs
        intro hne m' es' hfm' hes'
        exact updateTargets_preserves repo_index q m targets htgs hqid wfFun targets
          (fun t ht => ht) st st' hok p.scholar_id m' es' hes'
          (fun hmm => hpq m hne (fun hq0 => hqne hq0) (hmm ▸ hfm') hm)
          (hp hne m' es' hfm' hes')

theorem updateGo_settles (repo_index : Index) (cutoff : ℚ)
    (wfFun : ∀ m m' es es' pr, pyGet? repo_index m = some es →
      pyGet? repo_index m' = some es' → pr ∈ es → pr ∈ es' → m = m')
    (pubs0 : List ScholarPub)
    (hids : ∀ p ∈ pubs0, pyStrip p.scholar_id = p.scholar_id)
    (huq : ∀ p ∈ pubs0, ∀ q ∈ pubs0, p.scholar_id ≠ [] → q.scholar_id ≠ [] → ∀ m,
      find_match (normalize_title p.title) (repo_index.map Prod.fst) cutoff = some m →
      find_match (normalize_title q.title) (repo_index.map Prod.fst) cutoff = some m →
      p.scholar_id = q.scholar_id) :
    ∀ (ps : List ScholarPub), (∀ p ∈ ps, p ∈ pubs0) →
      ∀ (st st' : Loaded × ℕ), updateGo repo_index cutoff ps st = Except.ok st' →
      ∀ (P : ScholarPub → Prop), (∀ p, P p → p ∈ pubs0) →
        (∀ p, P p → Settled repo_index cutoff st.1 p) →
        ∀ p, (P p ∨ p ∈ ps) → Settled repo_index cutoff st'.1 p
  | [], _, st, st', hok, P, _, hPset, p, hp => by
    injection hok with he
    rw [← he]
    rcases hp with hp | hp
    · exact hPset p hp
    · exact absurd hp (List.not_mem_nil p)
  | q :: ps, hsub, st, st', hok, P, hPsub, hPset, p, hp => by
    unfold updateGo at hok
    split at hok
    · exact absurd hok (by simp)
    · rename_i st1 hq
      have hqmem : q ∈ pubs0 := hsub q (List.mem_cons_self q ps)
      have hqids : pyStrip q.scholar_id = q.scholar_id := hids q hqmem
      have hP' : ∀ p2, (P p2 ∨ p2 = q) → Settled repo_index cutoff st1.1 p2 := by
        intro p2 hp2
        rcases hp2 with hp2 | hp2
        · exact updatePub_preserves_settled repo_index cutoff q p2 st st1 hq hqids wfFun
            (fun m hne1 hne2 hf1 hf2 =>
              huq p2 (hPsub p2 hp2) q hqmem hne1 hne2 m hf1 hf2)
            (hPset p2 hp2)
        · subst hp2
          exact updatePub_settles repo_index cutoff p2 st st1 hq hqids wfFun
      have hrec := updateGo_settles repo_index cutoff wfFun pubs0 hids huq ps
        (fun p2 hp2 => hsub p2 (List.mem_cons_of_mem q hp2)) st1 st' hok
        (fun p2 => P p2 ∨ p2 = q)
        (fun p2 hp2 => by
          rcases hp2 with h2 | h2
          · exact hPsub p2 h2
          · exact h2 ▸ hqmem)
        hP'
      rcases hp with hp | hp
      · exact hrec p (Or.inl (Or.inl hp))
      · rcases List.mem_cons.mp hp with hp | hp
        · exact hrec p (Or.inl (Or.inr hp))
        · exact hrec p (Or.inr hp)

theorem updateCell_noop (q : ScholarPub) (ld : Loaded) (cnt : ℕ) (tq : Str × ℕ)
    (hgood : ∃ h r row, pyGet? ld tq.1 = some (h, r) ∧ scholarIdKey ∈ h ∧
      r[tq.2]? = some row ∧ pyStrip (rowGetD row scholarIdKey []) = q.scholar_id) :
    updateCell q (ld, cnt) tq = Except.ok (ld, cnt) := by
  obtain ⟨h, r, row, hget, hsid, hrow, hstrip⟩ := hgood
  unfold updateCell
  simp only [hget]
  rw [show ensureColumn (h, r) = (h, r) from ensureColumn_of_mem (h, r) hsid]
  simp only [hrow, hstrip, ne_eq, not_true_eq_false, if_false, ite_false]
  rw [pySet_eq_self ld tq.1 (h, r) hget]

theorem updateTargets_noop (q : ScholarPub) (ld : Loaded) :
    ∀ (ts : List (Str × ℕ)) (cnt : ℕ),
      (∀ t ∈ ts, ∃ h r row, pyGet? ld t.1 = some (h, r) ∧ scholarIdKey ∈ h ∧
        r[t.2]? = some row ∧ pyStrip (rowGetD row scholarIdKey []) = q.scholar_id) →
      updateTargets q ts (ld, cnt) = Except.ok (ld, cnt)
  | [], _, _ => rfl
  | t :: ts, cnt, hgood => by
    unfold updateTargets
    simp only [updateCell_noop q ld cnt t (hgood t (List.mem_cons_self t ts))]
    exact updateTargets_noop q ld ts cnt
      (fun t2 ht2 => hgood t2 (List.mem_cons_of_mem t ht2))

theorem updatePub_noop (repo_index : Index) (cutoff : ℚ) (ld : Loaded) (cnt : ℕ)
    (q : ScholarPub) (hset : Settled repo_index cutoff ld q) :
    updatePub repo_index cutoff (ld, cnt) q = Except.ok (ld, cnt) := by
  unfold updatePub
  by_cases hid : q.scholar_id = []
  · rw [if_pos hid]
  · rw [if_neg hid]
    cases hfm : find_match (normalize_title q.title) (repo_index.map Prod.fst) cutoff with
    | none => rfl
    | some m =>
      obtain ⟨es, hes⟩ :=
        pyGet?_isSome_of_mem_keys (find_match_mem _ _ cutoff m hfm)
      simp only [hes]
      exact updateTargets_noop q ld es cnt (fun t ht => hset hid m es hfm hes t ht)

theorem updateGo_noop (repo_index : Index) (cutoff : ℚ) (ld : Loaded) :
    ∀ (ps : List ScholarPub) (cnt : ℕ),
      (∀ p ∈ ps, Settled repo_index cutoff ld p) →
      updateGo repo_index cutoff ps (ld, cnt) = Except.ok (ld, cnt)
  | [], _, _ => rfl
  | p :: ps, cnt, hset => by
    unfold updateGo
    simp only [updatePub_noop repo_index cutoff ld cnt p (hset p (List.mem_cons_self p ps))]
    exact updateGo_noop repo_index cutoff ld ps cnt
      (fun p2 hp2 => hset p2 (List.mem_cons_of_mem p hp2))

/-- C1 (amended): for a feed whose external ids are whitespace-trimmed (as
both loaders guarantee) and in which no two records carrying different
non-empty ids match the same index key, a second `update_scholar_ids` call
right after a successful first one changes nothing and reports zero updated
cells. -/
theorem update_scholar_ids_second_run_zero (files : List CsvFile)
    (scholar_pubs : List ScholarPub) (cutoff : ℚ) (l1 : Loaded) (n1 : ℕ)
    (hnd : (files.map CsvFile.path).Nodup)
    (hrun : update_scholar_ids (build_repo_title_index files).2
      (build_repo_title_index files).1 scholar_pubs cutoff = Except.ok (l1, n1))
    (hids : ∀ p ∈ scholar_pubs, pyStrip p.scholar_id = p.scholar_id)
    (huq : ∀ p ∈ scholar_pubs, ∀ q ∈ scholar_pubs,
      p.scholar_id ≠ [] → q.scholar_id ≠ [] → ∀ m,
      find_match (normalize_title p.title)
        ((build_repo_title_index files).1.map Prod.fst) cutoff = some m →
      find_match (normalize_title q.title)
        ((build_repo_title_index files).1.map Prod.fst) cutoff = some m →
      p.scholar_id = q.scholar_id) :
    update_scholar_ids l1 (build_repo_title_index files).1 scholar_pubs cutoff =
      Except.ok (l1, 0) := by
  have wfFun := indexWF_key_fun (build_repo_title_index files).1
    (build_repo_title_index files).2 (build_index_wf files hnd)
  have hsettled : ∀ p ∈ scholar_pubs,
      Settled (build_repo_title_index files).1 cutoff l1 p := by
    intro p hp
    exact updateGo_settles (build_repo_title_index files).1 cutoff wfFun scholar_pubs
      hids huq scholar_pubs (fun p2 hp2 => hp2) ((build_repo_title_index files).2, 0)
      (l1, n1) hrun (fun _ => False) (fun p2 hf => absurd hf (fun h2 => h2))
      (fun p2 hf => absurd hf (fun h2 => h2)) p (Or.inr hp)
  exact updateGo_noop (build_repo_title_index files).1 cutoff l1 scholar_pubs 0 hsettled

/-- C1 counterexample: with the collection row titled "t" and two external
records whose titles both normalize to "t" but whose ids differ ("id1",
"id2"), the first call flips the cell twice (2 updates) and a second call
with the same feed again reports 2 updated cells, not 0. -/
theorem update_idempotence_cex :
    (match update_scholar_ids
        (build_repo_title_index [⟨"f".toList, [["Title".toList], ["t".toList]]⟩]).2
        (build_repo_title_index [⟨"f".toList, [["Title".toList], ["t".toList]]⟩]).1
        [⟨"t".toList, "id1".toList, [], [], []⟩, ⟨"T".toList, "id2".toList, [], [], []⟩]
        1 with
      | Except.ok st1 =>
        (update_scholar_ids st1.1
          (build_repo_title_index [⟨"f".toList, [["Title".toList], ["t".toList]]⟩]).1
          [⟨"t".toList, "id1".toList, [], [], []⟩, ⟨"T".toList, "id2".toList, [], [], []⟩]
          1).map Prod.snd
      | Except.error e => Except.error e) = Except.ok 2 := by rfl

/-- Witness for the amended C1 at a concrete input: one record, trivially
satisfying both side conditions; the second run returns the first run's
state with zero updates. -/
theorem update_second_run_zero_witness :
    (([⟨"f".toList, [["Title".toList], ["t".toList]]⟩] : List CsvFile).map
        CsvFile.path).Nodup ∧
    update_scholar_ids
        [("f".toList, (["Title".toList, "Scholar ID".toList],
          [⟨[("Title".toList, "t".toList), ("Scholar ID".toList, "x".toList)], none⟩]))]
        (build_repo_title_index [⟨"f".toList, [["Title".toList], ["t".toList]]⟩]).1
        [⟨"t".toList, "x".toList, [], [], []⟩] 1 =
      Except.ok
        ([("f".toList, (["Title".toList, "Scholar ID".toList],
          [⟨[("Title".toList, "t".toList), ("Scholar ID".toList, "x".toList)], none⟩]))],
        0) :=
  ⟨by decide,
    update_scholar_ids_second_run_zero
      [⟨"f".toList, [["Title".toList], ["t".toList]]⟩]
      [⟨"t".toList, "x".toList, [], [], []⟩] 1
      [("f".toList, (["Title".toList, "Scholar ID".toList],
        [⟨[("Title".toList, "t".toList), ("Scholar ID".toList, "x".toList)], none⟩]))]
      1 (by decide) (by rfl) (by decide)
      (by
        intro p hp q hq h1 h2 m h3 h4
        rw [List.mem_singleton] at hp hq
        subst hp
        subst hq
        rfl)⟩
